import Mathlib

/-!
Verification development for the VF2++ isomorphism core
(`src/networkx/algorithms/isomorphism/VF2pp.py`).

The graphs handled by the source are networkx `Graph` objects: a finite
node set with an undirected edge set (the embedding models simple
undirected graphs; the multigraph variant mentioned in the source
docstring is out of scope of the claims settled here).  Nodes are
modelled as natural numbers, label values as natural numbers, and label
dicts as total functions (the spec, section 6, requires the label
collaborator to supply a label for every node).

`isomorphic_VF2pp` in the source is a Python generator: it lazily yields
complete mappings and terminates either normally (falling off the
`while` loop, i.e. `StopIteration`) or by raising an exception.  The
embedding below makes that explicit: `runVF2` executes the `while` loop
step by step (with fuel, since the loop is not structurally recursive)
and returns the list of yielded mappings together with an `Outcome`
saying how the generator ended.

The helper modules imported by the source
(`VF2pp_helpers.candidates.find_candidates`,
`VF2pp_helpers.feasibility.feasibility`,
`VF2pp_helpers.node_ordering.matching_order`,
`VF2pp_helpers.state.update_state` / `restore_state`) are not part of
the repository snapshot under `src/`; only their call sites are.  Those
definitions are therefore modelled from the spec (sections 4.2-4.5) and
each carries a doc comment saying exactly what is modelled.
-/

/-- A finite simple undirected graph: an explicit node list (networkx
iterates nodes in a definite order; node identifiers are distinct, which
theorems take as a `Nodup` hypothesis) and an explicit edge list.
Adjacency is symmetric by construction, as in an undirected networkx
`Graph`. -/
structure Graph where
  nodesList : List ℕ
  edgeList : List (ℕ × ℕ)
deriving DecidableEq, Repr

/-- Adjacency: `(u, v)` is an edge if it occurs in the edge list in
either orientation (networkx undirected edges). -/
def Graph.adj (G : Graph) (u v : ℕ) : Bool :=
  decide ((u, v) ∈ G.edgeList) || decide ((v, u) ∈ G.edgeList)

/-- The neighbor list of `u`: the nodes adjacent to `u` (networkx
`G.neighbors`; a self-loop makes `u` its own neighbor). -/
def Graph.nbr (G : Graph) (u : ℕ) : List ℕ :=
  G.nodesList.filter (fun v => G.adj u v)

/-- `G.order()` in networkx: the number of nodes. -/
def Graph.order (G : Graph) : ℕ := G.nodesList.length

/-- networkx degree: the number of incident edge endpoints; a self-loop
contributes 2 (it puts `u` into its own neighbor list and adds one
more). -/
def Graph.degree (G : Graph) (u : ℕ) : ℕ :=
  (G.nbr u).length + (if G.adj u u then 1 else 0)

/-- The sorted degree sequence, translating
`sorted(d for n, d in G.degree())` in `precheck`. -/
def sortedDegreeList (G : Graph) : List ℕ :=
  List.insertionSort (· ≤ ·) (G.nodesList.map G.degree)

/-- The number of nodes of `G` carrying label `lab`; `len(nodes)` for
one entry of `nodes_per_label` in `precheck` (label grouping,
`nx.utils.groups`, per spec section 4.1). -/
def labelCount (G : Graph) (l : ℕ → ℕ) (lab : ℕ) : ℕ :=
  (G.nodesList.filter (fun v => l v == lab)).length

/-- Translation of `nodes_per_label1 != nodes_per_label2` in `precheck`:
the two label-count dicts are equal iff every label value occurring in
either graph has the same count on both sides (a label absent from both
dicts trivially has count 0 = 0, so scanning the labels that occur is
exactly dict equality). -/
def labelCountsEqual (G1 G2 : Graph) (l1 l2 : ℕ → ℕ) : Bool :=
  ((G1.nodesList.map l1) ++ (G2.nodesList.map l2)).all
    (fun lab => labelCount G1 l1 lab == labelCount G2 l2 lab)

/-- `precheck(G1, G2, G1_labels, G2_labels)` from the source: equal node
counts, equal sorted degree sequences, equal per-label node counts. -/
def precheck (G1 G2 : Graph) (l1 l2 : ℕ → ℕ) : Bool :=
  if G1.order ≠ G2.order then false
  else if sortedDegreeList G1 ≠ sortedDegreeList G2 then false
  else if ¬ labelCountsEqual G1 G2 l1 l2 then false
  else true

/-- The mutable search state from `initialize_VF2pp`: the forward and
reverse mappings (Python dicts, modelled as association lists with the
most recently inserted pair first; the search only ever inserts a fresh
key and removes the most recently inserted one, so list operations match
dict operations exactly) and the four frontier sets `T1`, `T1_out`,
`T2`, `T2_out` (Python sets, modelled as `Finset ℕ`). -/
structure SState where
  mapping : List (ℕ × ℕ)
  reverse_mapping : List (ℕ × ℕ)
  T1 : Finset ℕ
  T1_out : Finset ℕ
  T2 : Finset ℕ
  T2_out : Finset ℕ
deriving DecidableEq

/-- Modelled from the spec: `update_state` (State Manager `Commit(n, m)`
of section 4.5) lives in `VF2pp_helpers.state`, which is not under
`src/`.  Per the spec it inserts `n ↦ m` into the forward/reverse
mapping; for every neighbor of `n` not yet mapped it moves it from
`T_out` to `T_in` if it was in `T_out` (or leaves it in `T_in`); it
removes `n` itself from whichever frontier set held it; and it performs
the symmetric update for `m` on the G2 side. -/
def update_state (G1 G2 : Graph) (n m : ℕ) (s : SState) : SState :=
  let M := (n, m) :: s.mapping
  let R := (m, n) :: s.reverse_mapping
  let newNbrs1 := ((G1.nbr n).filter (fun w => (M.lookup w).isNone)).toFinset
  let newNbrs2 := ((G2.nbr m).filter (fun w => (R.lookup w).isNone)).toFinset
  { mapping := M
    reverse_mapping := R
    T1 := (s.T1 ∪ newNbrs1).erase n
    T1_out := (s.T1_out \ newNbrs1).erase n
    T2 := (s.T2 ∪ newNbrs2).erase m
    T2_out := (s.T2_out \ newNbrs2).erase m }

/-- Modelled from the spec: `restore_state` (State Manager
`Rollback(n, m)` of section 4.5) lives in `VF2pp_helpers.state`, which
is not under `src/`.  Per the spec it is the inverse of Commit: it
removes `n ↦ m` from the mappings; each unmapped neighbor of `n`
returns to `T_out` iff none of its other neighbors remain mapped,
otherwise it stays in `T_in`; `n` itself returns to `T_in` if it still
has a mapped neighbor and to `T_out` otherwise (Commit removed it from
whichever set held it, and exact reversibility demands it be put back);
symmetrically on the G2 side. -/
def restore_state (G1 G2 : Graph) (n m : ℕ) (s : SState) : SState :=
  let M := s.mapping.eraseP (fun p => p.1 == n)
  let R := s.reverse_mapping.eraseP (fun p => p.1 == m)
  let hasMapped1 : ℕ → Bool := fun w => (G1.nbr w).any (fun x => (M.lookup x).isSome)
  let hasMapped2 : ℕ → Bool := fun w => (G2.nbr w).any (fun x => (R.lookup x).isSome)
  let drop1 := ((G1.nbr n).filter (fun w => (M.lookup w).isNone && !hasMapped1 w)).toFinset
  let drop2 := ((G2.nbr m).filter (fun w => (R.lookup w).isNone && !hasMapped2 w)).toFinset
  { mapping := M
    reverse_mapping := R
    T1 := if hasMapped1 n then insert n (s.T1 \ drop1) else s.T1 \ drop1
    T1_out := if hasMapped1 n then s.T1_out ∪ drop1 else insert n (s.T1_out ∪ drop1)
    T2 := if hasMapped2 m then insert m (s.T2 \ drop2) else s.T2 \ drop2
    T2_out := if hasMapped2 m then s.T2_out ∪ drop2 else insert m (s.T2_out ∪ drop2) }

/-- Modelled from the spec: `feasibility` (section 4.4) lives in
`VF2pp_helpers.feasibility`, which is not under `src/`.  Checks, in the
spec's cheapest-first order: (1) equal labels; (2) equal degrees;
(3) mapped-neighbor consistency in both directions; (4) the two frontier
cardinality cuts (counts of unmapped neighbors lying in `T_in`, resp.
`T_out`, must agree).  Check (5), multigraph edge multiplicities, does
not apply to the simple graphs modelled here.  All checks pass iff the
pair is accepted; no side effects. -/
def feasibility (G1 G2 : Graph) (l1 l2 : ℕ → ℕ) (n m : ℕ) (s : SState) : Bool :=
  (l1 n == l2 m) &&
  (G1.degree n == G2.degree m) &&
  ((G1.nbr n).all (fun u =>
      match s.mapping.lookup u with
      | some fu => G2.adj m fu
      | none => true)) &&
  ((G2.nbr m).all (fun v =>
      match s.reverse_mapping.lookup v with
      | some rv => G1.adj n rv
      | none => true)) &&
  (((G1.nbr n).filter (fun u => (s.mapping.lookup u).isNone && decide (u ∈ s.T1))).length ==
   ((G2.nbr m).filter (fun v => (s.reverse_mapping.lookup v).isNone && decide (v ∈ s.T2))).length) &&
  (((G1.nbr n).filter (fun u => (s.mapping.lookup u).isNone && decide (u ∈ s.T1_out))).length ==
   ((G2.nbr m).filter (fun v => (s.reverse_mapping.lookup v).isNone && decide (v ∈ s.T2_out))).length)

/-- Modelled from the spec: `find_candidates` (Candidate Generator,
section 4.3) lives in `VF2pp_helpers.candidates`, which is not under
`src/`.  If `n` has an already-mapped neighbor `u`, candidates are the
unmapped G2 neighbors of `forward[u]` sharing `n`'s label; otherwise
they are all unmapped, same-labeled G2 nodes.  An empty result is a
normal outcome driving backtrack. -/
def find_candidates (G1 G2 : Graph) (l1 l2 : ℕ → ℕ) (n : ℕ) (s : SState) : List ℕ :=
  match (G1.nbr n).filter (fun u => (s.mapping.lookup u).isSome) with
  | [] =>
    G2.nodesList.filter (fun w => (s.reverse_mapping.lookup w).isNone && (l2 w == l1 n))
  | u :: _ =>
    match s.mapping.lookup u with
    | some fu =>
      (G2.nbr fu).filter (fun w => (s.reverse_mapping.lookup w).isNone && (l2 w == l1 n))
    | none => []

/-- Modelled from the spec: `matching_order` (Node Ordering, section
4.2) lives in `VF2pp_helpers.node_ordering`, which is not under `src/`.
Its contract is to produce a total order, a sequence containing every
node of G1 exactly once; the priority heuristic inside it (ordered-
neighbor count, then degree, then label rarity) only influences search
speed, never any property settled here, so the node sequence is used in
its given order. -/
def matching_order (G1 _G2 : Graph) (_l1 _l2 : ℕ → ℕ) : List ℕ :=
  G1.nodesList

/-- A search frame from the explicit stack of `isomorphic_VF2pp`: the
pair `(current_node, candidate_nodes)`; the Python candidate iterator is
modelled as the list of candidates not yet consumed. -/
structure Frame where
  node : ℕ
  cands : List ℕ
deriving DecidableEq, Repr

/-- The full mutable state of the driver loop in `isomorphic_VF2pp`:
the `visited` set, the shared search state, the `matching_node` counter
and the explicit frame stack (head of the list = `stack[-1]`, the top of
the Python stack). -/
structure DState where
  visited : Finset ℕ
  sp : SState
  matching_node : ℕ
  stack : List Frame
deriving DecidableEq

/-- What one iteration of the driver's `while` loop does apart from
possibly yielding: continue with a new state, fall off the loop
(generator ends normally), or raise `IndexError`. -/
inductive Next where
  | halt : Next
  | err : Next
  | cont : DState → Next
deriving DecidableEq

/-- How the generator run ends: falls off the `while` loop normally,
raises `IndexError` (from `node_order[matching_node]` out of range), or
runs out of fuel (the fuel parameter of the embedding, never of the
source). -/
inductive Outcome where
  | normal : Outcome
  | indexError : Outcome
  | fuelOut : Outcome
deriving DecidableEq, Repr

/-- The `except StopIteration` branch of the driver: pop the frame,
decrement `matching_node`, and if the stack is still nonempty, restore
the state (the node at the new top of stack is the one whose Commit must
be rolled back; its image is looked up in the forward mapping, and the
rolled-back candidate leaves the `visited` set, which tracks candidates
tried within the current frames). -/
def popStep (G1 G2 : Graph) (vis : Finset ℕ) (sp : SState) (mn : ℕ)
    (rest : List Frame) : DState :=
  match rest with
  | [] => ⟨vis, sp, mn - 1, []⟩
  | f2 :: _ =>
    match sp.mapping.lookup f2.node with
    | some m2 => ⟨vis.erase m2, restore_state G1 G2 f2.node m2 sp, mn - 1, rest⟩
    | none => ⟨vis, sp, mn - 1, rest⟩

/-- One iteration of the `while stack:` loop of `isomorphic_VF2pp`
(source lines 39-68): look at the top frame; if its candidates are
exhausted, pop and restore; otherwise take the next candidate, test it
(`candidate not in visited and feasibility(...)`), and on acceptance
commit it, yield if the mapping became complete, and push a frame for
`node_order[matching_node]` — which raises `IndexError` when
`matching_node` is out of range of `node_order`.  Returns the optional
yielded mapping of this iteration and the control outcome. -/
def stepDriver (G1 G2 : Graph) (l1 l2 : ℕ → ℕ) (no : List ℕ) (st : DState) :
    Option (List (ℕ × ℕ)) × Next :=
  match st with
  | ⟨_vis, _sp, _mn, []⟩ => (none, Next.halt)
  | ⟨vis, sp, mn, top :: rest⟩ =>
    match top.cands with
    | [] => (none, Next.cont (popStep G1 G2 vis sp mn rest))
    | c :: cs =>
      if c ∉ vis ∧ feasibility G1 G2 l1 l2 top.node c sp = true then
        let sp' := update_state G1 G2 top.node c sp
        let y : Option (List (ℕ × ℕ)) :=
          if sp'.mapping.length = G1.order then some sp'.mapping else none
        if h : mn < no.length then
          (y, Next.cont ⟨insert c vis, sp', mn + 1,
              ⟨no.get ⟨mn, h⟩, find_candidates G1 G2 l1 l2 (no.get ⟨mn, h⟩) sp'⟩ ::
                ⟨top.node, cs⟩ :: rest⟩)
        else (y, Next.err)
      else (none, Next.cont ⟨vis, sp, mn, ⟨top.node, cs⟩ :: rest⟩)

/-- Run the driver loop for at most `fuel` iterations, collecting the
yielded mappings in order and reporting how the generator ended. -/
def runVF2 (G1 G2 : Graph) (l1 l2 : ℕ → ℕ) (no : List ℕ) :
    ℕ → DState → List (List (ℕ × ℕ)) × Outcome
  | 0, _ => ([], Outcome.fuelOut)
  | fuel + 1, st =>
    match stepDriver G1 G2 l1 l2 no st with
    | (y, Next.halt) => (y.toList, Outcome.normal)
    | (y, Next.err) => (y.toList, Outcome.indexError)
    | (y, Next.cont st') =>
      let r := runVF2 G1 G2 l1 l2 no fuel st'
      (y.toList ++ r.1, r.2)

/-- The state built by `initialize_VF2pp` (source lines 108-130): empty
mappings, `T1 = T2 = ∅`, `T1_out`/`T2_out` holding all nodes. -/
def initSState (G1 G2 : Graph) : SState :=
  { mapping := []
    reverse_mapping := []
    T1 := ∅
    T1_out := G1.nodesList.toFinset
    T2 := ∅
    T2_out := G2.nodesList.toFinset }

/-- The initial stack of `initialize_VF2pp`: one frame for
`node_order[0]` and its candidates.  (The source would raise on an empty
node order; that code path is unreachable in `isomorphic_VF2pp` because
the empty/precheck gates run first, and the embedding returns an empty
stack there.) -/
def initStack (G1 G2 : Graph) (l1 l2 : ℕ → ℕ) : List Frame :=
  match matching_order G1 G2 l1 l2 with
  | [] => []
  | n0 :: _ => [⟨n0, find_candidates G1 G2 l1 l2 n0 (initSState G1 G2)⟩]

/-- The driver state right before the first `while` iteration:
`visited = set()`, the initialized search state, `matching_node = 1`,
and the one-frame stack. -/
def initState (G1 G2 : Graph) (l1 l2 : ℕ → ℕ) : DState :=
  ⟨∅, initSState G1 G2, 1, initStack G1 G2 l1 l2⟩

/-- `isomorphic_VF2pp(G1, G2, G1_labels, G2_labels)` (source lines
13-68), as the pair (list of yielded mappings, how the generator ends):
if both graphs are empty the generator returns immediately (`return
False` inside a generator ends it with no yields); if `precheck` fails
likewise; otherwise the driver loop runs from the initialized state. -/
def isomorphic_VF2pp (fuel : ℕ) (G1 G2 : Graph) (l1 l2 : ℕ → ℕ) :
    List (List (ℕ × ℕ)) × Outcome :=
  if G1.order = 0 ∧ G2.order = 0 then ([], Outcome.normal)
  else if precheck G1 G2 l1 l2 = false then ([], Outcome.normal)
  else runVF2 G1 G2 l1 l2 (matching_order G1 G2 l1 l2) fuel (initState G1 G2 l1 l2)

/-- The function a complete association-list mapping denotes (Python
`mapping[x]`); junk value 0 off the mapped domain. -/
def mapFun (M : List (ℕ × ℕ)) (x : ℕ) : ℕ := ((M.lookup x).getD 0)

/-- A label-preserving isomorphism: a bijection from all of G1's nodes
onto all of G2's nodes such that `(u,v)` is an edge of G1 iff
`(φ u, φ v)` is an edge of G2, and `l1 u = l2 (φ u)` everywhere. -/
def IsIsoMap (G1 G2 : Graph) (l1 l2 : ℕ → ℕ) (φ : ℕ → ℕ) : Prop :=
  Set.BijOn φ {x | x ∈ G1.nodesList} {y | y ∈ G2.nodesList} ∧
  (∀ u ∈ G1.nodesList, ∀ v ∈ G1.nodesList, G1.adj u v = G2.adj (φ u) (φ v)) ∧
  (∀ u ∈ G1.nodesList, l1 u = l2 (φ u))

/-- The nodes currently covered on the G1 side: the keys of the forward
mapping, as a finite set. -/
def domF (M : List (ℕ × ℕ)) : Finset ℕ := (M.map Prod.fst).toFinset

/-- The nodes currently covered on the G2 side: the values of the
forward mapping, as a finite set. -/
def ranF (M : List (ℕ × ℕ)) : Finset ℕ := (M.map Prod.snd).toFinset

/-- The frontier set `T_in` determined by a covered set: unmapped nodes
adjacent to at least one mapped node (spec section 3). -/
def canonTin (G : Graph) (dom : Finset ℕ) : Finset ℕ :=
  G.nodesList.toFinset.filter (fun w => w ∉ dom ∧ (G.nbr w).any (fun x => decide (x ∈ dom)))

/-- The frontier set `T_out` determined by a covered set: unmapped nodes
adjacent to no mapped node (spec section 3). -/
def canonTout (G : Graph) (dom : Finset ℕ) : Finset ℕ :=
  G.nodesList.toFinset.filter (fun w => w ∉ dom ∧ ¬ (G.nbr w).any (fun x => decide (x ∈ dom)))

/-- The frontier sets hold exactly the values the spec's invariant
(section 3) assigns them, as a function of the current mappings. -/
def Coherent (G1 G2 : Graph) (s : SState) : Prop :=
  s.T1 = canonTin G1 (domF s.mapping) ∧
  s.T1_out = canonTout G1 (domF s.mapping) ∧
  s.T2 = canonTin G2 (ranF s.mapping) ∧
  s.T2_out = canonTout G2 (ranF s.mapping)

/-- Exactly one of three alternatives holds. -/
def ExactlyOne (a b c : Prop) : Prop :=
  (a ∧ ¬ b ∧ ¬ c) ∨ (¬ a ∧ b ∧ ¬ c) ∨ (¬ a ∧ ¬ b ∧ c)

/-- The driver-loop invariant tying together every piece of mutable
state of `isomorphic_VF2pp`; it holds before the first iteration and is
preserved by every iteration. -/
structure DriverInv (G1 G2 : Graph) (l1 l2 : ℕ → ℕ) (no : List ℕ) (st : DState) : Prop where
  mn_eq : st.matching_node = st.stack.length
  stack_nodes : st.stack.map Frame.node = (no.take st.matching_node).reverse
  map_keys : st.sp.mapping.map Prod.fst = st.stack.tail.map Frame.node
  rev_eq : st.sp.reverse_mapping = st.sp.mapping.map Prod.swap
  vals_nodup : (st.sp.mapping.map Prod.snd).Nodup
  vals_visited : ∀ y ∈ st.sp.mapping.map Prod.snd, y ∈ st.visited
  cands_sub : ∀ f ∈ st.stack, ∀ c ∈ f.cands, c ∈ G2.nodesList
  pairs_mem : ∀ p ∈ st.sp.mapping, p.1 ∈ G1.nodesList ∧ p.2 ∈ G2.nodesList
  pairs_label : ∀ p ∈ st.sp.mapping, l1 p.1 = l2 p.2
  pairs_deg : ∀ p ∈ st.sp.mapping, G1.degree p.1 = G2.degree p.2
  pairs_adj : ∀ p ∈ st.sp.mapping, ∀ q ∈ st.sp.mapping, p.1 ≠ q.1 →
      G1.adj p.1 q.1 = G2.adj p.2 q.2
  coh : Coherent G1 G2 st.sp

/-- The driver states observable at the top of the `while` loop of
`isomorphic_VF2pp`: the initialized state and everything the loop body
steps to from them. -/
inductive Reaches (G1 G2 : Graph) (l1 l2 : ℕ → ℕ) : DState → Prop where
  | init : Reaches G1 G2 l1 l2 (initState G1 G2 l1 l2)
  | step {st st' : DState} {y : Option (List (ℕ × ℕ))} :
      Reaches G1 G2 l1 l2 st →
      stepDriver G1 G2 l1 l2 (matching_order G1 G2 l1 l2) st = (y, Next.cont st') →
      Reaches G1 G2 l1 l2 st'

/-! ### Basic lemmas about the graph model -/

theorem Graph.adj_symm (G : Graph) (u v : ℕ) : G.adj u v = G.adj v u := by
  simp [Graph.adj, Bool.or_comm]

theorem Graph.mem_nbr {G : Graph} {u v : ℕ} :
    v ∈ G.nbr u ↔ v ∈ G.nodesList ∧ G.adj u v = true := by
  simp [Graph.nbr]

theorem lookup_eq_none_iff {M : List (ℕ × ℕ)} {x : ℕ} :
    M.lookup x = none ↔ x ∉ M.map Prod.fst := by
  induction M with
  | nil => simp [List.lookup]
  | cons p M ih =>
    cases p with
    | mk a b =>
      by_cases h : x = a
      · subst h; simp [List.lookup]
      · simp [List.lookup, h, ih, beq_false_of_ne h]

theorem lookup_isSome_iff {M : List (ℕ × ℕ)} {x : ℕ} :
    (M.lookup x).isSome = true ↔ x ∈ M.map Prod.fst := by
  rcases h : M.lookup x with _ | y
  · simpa [h] using lookup_eq_none_iff.mp h
  · simp only [Option.isSome_some, true_iff]
    by_contra hx
    rw [← lookup_eq_none_iff] at hx
    rw [h] at hx; exact Option.noConfusion hx

theorem lookup_mem {M : List (ℕ × ℕ)} {x y : ℕ} (h : M.lookup x = some y) :
    (x, y) ∈ M := by
  induction M with
  | nil => simp [List.lookup] at h
  | cons p M ih =>
    cases p with
    | mk a b =>
      by_cases hx : x = a
      · subst hx
        simp [List.lookup] at h
        simp [h]
      · simp [List.lookup, beq_false_of_ne hx] at h
        exact List.mem_cons_of_mem _ (ih h)

theorem mem_lookup {M : List (ℕ × ℕ)} {x y : ℕ}
    (hnd : (M.map Prod.fst).Nodup) (h : (x, y) ∈ M) : M.lookup x = some y := by
  induction M with
  | nil => simp at h
  | cons p M ih =>
    cases p with
    | mk a b =>
      simp only [List.map_cons, List.nodup_cons] at hnd
      rcases List.mem_cons.mp h with h1 | h2
      · cases h1; simp [List.lookup]
      · have hxa : x ≠ a := by
          intro he; subst he
          exact hnd.1 (List.mem_map.mpr ⟨(x, y), h2, rfl⟩)
        simp [List.lookup, beq_false_of_ne hxa]
        exact ih hnd.2 h2

/-! ### C2: resumption after a complete match raises IndexError -/

/-- C2 evidence: on two single-node graphs with equal labels the
generator yields the unique complete mapping and then, when resumed,
evaluates `node_order[matching_node]` with `matching_node` equal to the
length of `node_order`, raising `IndexError` instead of continuing the
search or ending normally.  (The intended continuation, `prepare_next`
plus `continue`, is commented out at source lines 54-55.) -/
theorem vf2pp_resume_raises_indexError :
    isomorphic_VF2pp 9 ⟨[0], []⟩ ⟨[5], []⟩ (fun _ => 7) (fun _ => 7) =
      ([[(0, 5)]], Outcome.indexError) := by decide

/-! ### C5: degenerate inputs -/

/-- C5: if both input graphs are empty the query produces no mapping
(the source returns `False`, ending the generator with no yields), and
if exactly one of the graphs is empty the query likewise produces no
results (the `precheck` node-count test fails); in every degenerate case
the generator ends normally. -/
theorem vf2pp_degenerate (fuel : ℕ) (G1 G2 : Graph) (l1 l2 : ℕ → ℕ)
    (h : (G1.order = 0 ∧ G2.order = 0) ∨ (G1.order = 0 ∧ G2.order ≠ 0) ∨
         (G1.order ≠ 0 ∧ G2.order = 0)) :
    isomorphic_VF2pp fuel G1 G2 l1 l2 = ([], Outcome.normal) := by
  rcases h with ⟨h1, h2⟩ | ⟨h1, h2⟩ | ⟨h1, h2⟩
  · simp [isomorphic_VF2pp, h1, h2]
  · have hp : precheck G1 G2 l1 l2 = false := by
      simp only [precheck]
      rw [if_pos]
      rw [h1]; exact fun he => h2 he.symm
    simp [isomorphic_VF2pp, h1, h2, hp]
  · have hp : precheck G1 G2 l1 l2 = false := by
      simp only [precheck]
      rw [if_pos]
      rw [h2]; exact h1
    simp [isomorphic_VF2pp, h1, h2, hp]

/-- Witness for C5 at a concrete degenerate input: the first graph
empty, the second a single node. -/
theorem vf2pp_degenerate_witness :
    ((Graph.order ⟨[], []⟩ = 0 ∧ Graph.order ⟨[9], []⟩ = 0) ∨
      (Graph.order ⟨[], []⟩ = 0 ∧ Graph.order ⟨[9], []⟩ ≠ 0) ∨
      (Graph.order ⟨[], []⟩ ≠ 0 ∧ Graph.order ⟨[9], []⟩ = 0)) ∧
    isomorphic_VF2pp 3 ⟨[], []⟩ ⟨[9], []⟩ (fun _ => 0) (fun _ => 0) = ([], Outcome.normal) :=
  ⟨by decide, vf2pp_degenerate 3 ⟨[], []⟩ ⟨[9], []⟩ (fun _ => 0) (fun _ => 0) (by decide)⟩

/-! ### C9: determinism -/

/-- C9: the query is a deterministic function of its arguments — two
invocations on equal graphs and extensionally equal label maps produce
identical result sequences (same mappings, same order, same ending);
the embedding is a pure function, so nothing outside the arguments can
influence the result. -/
theorem vf2pp_deterministic (fuel : ℕ) (G1 G2 G1' G2' : Graph) (l1 l2 l1' l2' : ℕ → ℕ)
    (h1 : G1 = G1') (h2 : G2 = G2') (h3 : ∀ x, l1 x = l1' x) (h4 : ∀ x, l2 x = l2' x) :
    isomorphic_VF2pp fuel G1 G2 l1 l2 = isomorphic_VF2pp fuel G1' G2' l1' l2' := by
  subst h1; subst h2
  have e3 : l1 = l1' := funext h3
  have e4 : l2 = l2' := funext h4
  subst e3; subst e4; rfl

/-- Witness for C9 at a concrete input. -/
theorem vf2pp_deterministic_witness :
    isomorphic_VF2pp 9 ⟨[0], []⟩ ⟨[5], []⟩ (fun _ => 7) (fun _ => 7) =
      isomorphic_VF2pp 9 ⟨[0], []⟩ ⟨[5], []⟩ (fun _ => 7) (fun x => 7 + 0 * x) :=
  vf2pp_deterministic 9 ⟨[0], []⟩ ⟨[5], []⟩ ⟨[0], []⟩ ⟨[5], []⟩ _ _ _ _
    rfl rfl (fun _ => rfl) (fun x => by simp)

/-! ### C6: structural impossibility short-circuits with zero search work -/

theorem insertionSort_eq_of_perm {l l' : List ℕ} (h : l.Perm l') :
    List.insertionSort (· ≤ ·) l = List.insertionSort (· ≤ ·) l' :=
  List.eq_of_perm_of_sorted
    (((List.perm_insertionSort _ _).trans h).trans (List.perm_insertionSort _ _).symm)
    (List.sorted_insertionSort _ _) (List.sorted_insertionSort _ _)

theorem labelCountsEqual_false {G1 G2 : Graph} {l1 l2 : ℕ → ℕ}
    (h : ∃ lab, labelCount G1 l1 lab ≠ labelCount G2 l2 lab) :
    labelCountsEqual G1 G2 l1 l2 = false := by
  rcases h with ⟨lab, hlab⟩
  rw [← Bool.not_eq_true]
  intro hall
  rw [labelCountsEqual, List.all_eq_true] at hall
  have hmem : lab ∈ G1.nodesList.map l1 ++ G2.nodesList.map l2 := by
    rcases Nat.eq_zero_or_pos (labelCount G1 l1 lab) with h1 | h1
    · rcases Nat.eq_zero_or_pos (labelCount G2 l2 lab) with h2 | h2
      · exact absurd (h1.trans h2.symm) hlab
      · have hne : G2.nodesList.filter (fun v => l2 v == lab) ≠ [] := by
          intro hx; rw [labelCount, hx] at h2; simp at h2
        rcases List.exists_mem_of_ne_nil _ hne with ⟨v, hv⟩
        rcases List.mem_filter.mp hv with ⟨hv1, hv2⟩
        exact List.mem_append_right _ (List.mem_map.mpr ⟨v, hv1, eq_of_beq hv2⟩)
    · have hne : G1.nodesList.filter (fun v => l1 v == lab) ≠ [] := by
        intro hx; rw [labelCount, hx] at h1; simp at h1
      rcases List.exists_mem_of_ne_nil _ hne with ⟨v, hv⟩
      rcases List.mem_filter.mp hv with ⟨hv1, hv2⟩
      exact List.mem_append_left _ (List.mem_map.mpr ⟨v, hv1, eq_of_beq hv2⟩)
  exact hlab (eq_of_beq (hall lab hmem))

theorem precheck_false_of_impossible {G1 G2 : Graph} {l1 l2 : ℕ → ℕ}
    (h : G1.order ≠ G2.order ∨
         ¬ (G1.nodesList.map G1.degree).Perm (G2.nodesList.map G2.degree) ∨
         (∃ lab, labelCount G1 l1 lab ≠ labelCount G2 l2 lab)) :
    precheck G1 G2 l1 l2 = false := by
  rcases h with h1 | h2 | h3
  · simp [precheck, h1]
  · have hs : sortedDegreeList G1 ≠ sortedDegreeList G2 := by
      intro he
      have p1 := List.perm_insertionSort (· ≤ ·) (G1.nodesList.map G1.degree)
      have p2 := List.perm_insertionSort (· ≤ ·) (G2.nodesList.map G2.degree)
      rw [sortedDegreeList, sortedDegreeList] at he
      rw [he] at p1
      exact h2 (p1.symm.trans p2)
    by_cases h1 : G1.order = G2.order
    · simp [precheck, h1, hs]
    · simp [precheck, h1]
  · have hl := labelCountsEqual_false h3
    by_cases h1 : G1.order = G2.order
    · by_cases h2 : sortedDegreeList G1 = sortedDegreeList G2
      · simp [precheck, h1, h2, hl]
      · simp [precheck, h1, h2]
    · simp [precheck, h1]

/-- C6: if the two graphs differ in node count, or in the multiset of
node degrees, or in the number of nodes per label value, then `precheck`
returns `False` and the query produces no mapping while doing zero
search work: for every fuel bound, even zero, the result is the empty
sequence with a normal ending — the `while` loop body never executes,
so no search state is consulted and no candidate pair is ever tested,
and the empty result is a normal outcome, not an error. -/
theorem vf2pp_structural_short_circuit (G1 G2 : Graph) (l1 l2 : ℕ → ℕ)
    (h : G1.order ≠ G2.order ∨
         ¬ (G1.nodesList.map G1.degree).Perm (G2.nodesList.map G2.degree) ∨
         (∃ lab, labelCount G1 l1 lab ≠ labelCount G2 l2 lab)) :
    precheck G1 G2 l1 l2 = false ∧
    ∀ fuel, isomorphic_VF2pp fuel G1 G2 l1 l2 = ([], Outcome.normal) := by
  have hp := precheck_false_of_impossible h
  refine ⟨hp, fun fuel => ?_⟩
  by_cases hb : G1.order = 0 ∧ G2.order = 0
  · exfalso
    rcases hb with ⟨hb1, hb2⟩
    have e1 : G1.nodesList = [] := List.length_eq_zero.mp hb1
    have e2 : G2.nodesList = [] := List.length_eq_zero.mp hb2
    rcases h with h1 | h2 | h3
    · exact h1 (by rw [Graph.order, Graph.order, e1, e2])
    · exact h2 (by rw [e1, e2]; rfl)
    · rcases h3 with ⟨lab, hlab⟩
      exact hlab (by rw [labelCount, labelCount, e1, e2]; rfl)
  · simp [isomorphic_VF2pp, hb, hp]

/-- Witness for C6: a 4-node path versus a 4-node star (spec scenario:
degree sequences `[1,1,2,2]` vs `[1,1,1,3]`). -/
theorem vf2pp_structural_short_circuit_witness :
    (Graph.order ⟨[1,2,3,4], [(1,2),(2,3),(3,4)]⟩ ≠ Graph.order ⟨[1,2,3,4], [(1,2),(1,3),(1,4)]⟩ ∨
      ¬ (Graph.nodesList ⟨[1,2,3,4], [(1,2),(2,3),(3,4)]⟩ |>.map
            (Graph.degree ⟨[1,2,3,4], [(1,2),(2,3),(3,4)]⟩)).Perm
          (Graph.nodesList ⟨[1,2,3,4], [(1,2),(1,3),(1,4)]⟩ |>.map
            (Graph.degree ⟨[1,2,3,4], [(1,2),(1,3),(1,4)]⟩)) ∨
      (∃ lab, labelCount ⟨[1,2,3,4], [(1,2),(2,3),(3,4)]⟩ (fun _ => 0) lab ≠
              labelCount ⟨[1,2,3,4], [(1,2),(1,3),(1,4)]⟩ (fun _ => 0) lab)) ∧
    (precheck ⟨[1,2,3,4], [(1,2),(2,3),(3,4)]⟩ ⟨[1,2,3,4], [(1,2),(1,3),(1,4)]⟩
        (fun _ => 0) (fun _ => 0) = false ∧
      ∀ fuel, isomorphic_VF2pp fuel ⟨[1,2,3,4], [(1,2),(2,3),(3,4)]⟩
          ⟨[1,2,3,4], [(1,2),(1,3),(1,4)]⟩ (fun _ => 0) (fun _ => 0) = ([], Outcome.normal)) := by
  constructor
  · refine Or.inr (Or.inl ?_)
    intro hperm
    have := hperm.count_eq 3
    revert this; decide
  · exact vf2pp_structural_short_circuit _ _ _ _ (Or.inr (Or.inl (by
      intro hperm
      have := hperm.count_eq 3
      revert this; decide)))

/-! ### C3: the pre-check is idempotent and never falsely rejects -/

theorem iso_order {G1 G2 : Graph} {l1 l2 : ℕ → ℕ} {φ : ℕ → ℕ}
    (hnd1 : G1.nodesList.Nodup) (hnd2 : G2.nodesList.Nodup)
    (h : IsIsoMap G1 G2 l1 l2 φ) : G1.order = G2.order := by
  obtain ⟨⟨hmap, hinj, hsurj⟩, _, _⟩ := h
  have hcard : G1.nodesList.toFinset.card = G2.nodesList.toFinset.card := by
    refine Finset.card_bij (fun a _ => φ a) ?_ ?_ ?_
    · intro a ha
      exact List.mem_toFinset.mpr (hmap (List.mem_toFinset.mp ha))
    · intro a1 ha1 a2 ha2 he
      exact hinj (List.mem_toFinset.mp ha1) (List.mem_toFinset.mp ha2) he
    · intro b hb
      rcases hsurj (List.mem_toFinset.mp hb) with ⟨a, ha, hab⟩
      exact ⟨a, List.mem_toFinset.mpr ha, hab⟩
  rw [Graph.order, Graph.order, ← List.toFinset_card_of_nodup hnd1,
    ← List.toFinset_card_of_nodup hnd2]
  exact hcard

theorem iso_degree {G1 G2 : Graph} {l1 l2 : ℕ → ℕ} {φ : ℕ → ℕ}
    (hnd1 : G1.nodesList.Nodup) (hnd2 : G2.nodesList.Nodup)
    (h : IsIsoMap G1 G2 l1 l2 φ) {x : ℕ} (hx : x ∈ G1.nodesList) :
    G1.degree x = G2.degree (φ x) := by
  obtain ⟨⟨hmap, hinj, hsurj⟩, hadj, _⟩ := h
  have len1 : (G1.nbr x).length =
      (G1.nodesList.toFinset.filter (fun v => G1.adj x v = true)).card := by
    rw [Graph.nbr, ← List.toFinset_filter,
      List.toFinset_card_of_nodup (hnd1.filter _)]
  have len2 : (G2.nbr (φ x)).length =
      (G2.nodesList.toFinset.filter (fun v => G2.adj (φ x) v = true)).card := by
    rw [Graph.nbr, ← List.toFinset_filter,
      List.toFinset_card_of_nodup (hnd2.filter _)]
  have cardeq : (G1.nodesList.toFinset.filter (fun v => G1.adj x v = true)).card =
      (G2.nodesList.toFinset.filter (fun v => G2.adj (φ x) v = true)).card := by
    refine Finset.card_bij (fun a _ => φ a) ?_ ?_ ?_
    · intro a ha
      rcases Finset.mem_filter.mp ha with ⟨ha1, ha2⟩
      have ha1' := List.mem_toFinset.mp ha1
      refine Finset.mem_filter.mpr ⟨List.mem_toFinset.mpr (hmap ha1'), ?_⟩
      rw [← hadj x hx a ha1']; exact ha2
    · intro a1 ha1 a2 ha2 he
      rcases Finset.mem_filter.mp ha1 with ⟨hb1, _⟩
      rcases Finset.mem_filter.mp ha2 with ⟨hb2, _⟩
      exact hinj (List.mem_toFinset.mp hb1) (List.mem_toFinset.mp hb2) he
    · intro b hb
      rcases Finset.mem_filter.mp hb with ⟨hb1, hb2⟩
      rcases hsurj (List.mem_toFinset.mp hb1) with ⟨a, ha, hab⟩
      refine ⟨a, Finset.mem_filter.mpr ⟨List.mem_toFinset.mpr ha, ?_⟩, hab⟩
      rw [hadj x hx a ha, hab]; exact hb2
  have hloop : G1.adj x x = G2.adj (φ x) (φ x) := hadj x hx x hx
  rw [Graph.degree, Graph.degree, len1, len2, cardeq, hloop]

theorem iso_degree_perm {G1 G2 : Graph} {l1 l2 : ℕ → ℕ} {φ : ℕ → ℕ}
    (hnd1 : G1.nodesList.Nodup) (hnd2 : G2.nodesList.Nodup)
    (h : IsIsoMap G1 G2 l1 l2 φ) :
    (G1.nodesList.map G1.degree).Perm (G2.nodesList.map G2.degree) := by
  have himg : (G1.nodesList.map φ).Perm G2.nodesList := by
    obtain ⟨⟨hmap, hinj, hsurj⟩, _, _⟩ := h
    refine List.perm_of_nodup_nodup_toFinset_eq ?_ hnd2 ?_
    · exact hnd1.map_on (fun a ha b hb => hinj ha hb)
    · apply Finset.ext
      intro b
      simp only [List.mem_toFinset, List.mem_map]
      constructor
      · rintro ⟨a, ha, rfl⟩; exact hmap ha
      · intro hb
        rcases hsurj hb with ⟨a, ha, hab⟩
        exact ⟨a, ha, hab⟩
  have hcongr : G1.nodesList.map G1.degree = (G1.nodesList.map φ).map G2.degree := by
    rw [List.map_map]
    apply List.map_congr_left
    intro a ha
    exact iso_degree hnd1 hnd2 h ha
  rw [hcongr]
  exact himg.map G2.degree

theorem iso_labelCount {G1 G2 : Graph} {l1 l2 : ℕ → ℕ} {φ : ℕ → ℕ}
    (hnd1 : G1.nodesList.Nodup) (hnd2 : G2.nodesList.Nodup)
    (h : IsIsoMap G1 G2 l1 l2 φ) (lab : ℕ) :
    labelCount G1 l1 lab = labelCount G2 l2 lab := by
  obtain ⟨⟨hmap, hinj, hsurj⟩, _, hlab⟩ := h
  have len1 : labelCount G1 l1 lab =
      (G1.nodesList.toFinset.filter (fun v => (l1 v == lab) = true)).card := by
    rw [labelCount, ← List.toFinset_filter,
      List.toFinset_card_of_nodup (hnd1.filter _)]
  have len2 : labelCount G2 l2 lab =
      (G2.nodesList.toFinset.filter (fun v => (l2 v == lab) = true)).card := by
    rw [labelCount, ← List.toFinset_filter,
      List.toFinset_card_of_nodup (hnd2.filter _)]
  rw [len1, len2]
  refine Finset.card_bij (fun a _ => φ a) ?_ ?_ ?_
  · intro a ha
    rcases Finset.mem_filter.mp ha with ⟨ha1, ha2⟩
    have ha1' := List.mem_toFinset.mp ha1
    refine Finset.mem_filter.mpr ⟨List.mem_toFinset.mpr (hmap ha1'), ?_⟩
    have : l1 a = lab := eq_of_beq ha2
    exact beq_iff_eq.mpr ((hlab a ha1').symm.trans this)
  · intro a1 ha1 a2 ha2 he
    rcases Finset.mem_filter.mp ha1 with ⟨hb1, _⟩
    rcases Finset.mem_filter.mp ha2 with ⟨hb2, _⟩
    exact hinj (List.mem_toFinset.mp hb1) (List.mem_toFinset.mp hb2) he
  · intro b hb
    rcases Finset.mem_filter.mp hb with ⟨hb1, hb2⟩
    rcases hsurj (List.mem_toFinset.mp hb1) with ⟨a, ha, hab⟩
    refine ⟨a, Finset.mem_filter.mpr ⟨List.mem_toFinset.mpr ha, ?_⟩, hab⟩
    have : l2 b = lab := eq_of_beq hb2
    rw [← hab] at this
    exact beq_iff_eq.mpr ((hlab a ha).trans this)

theorem iso_precheck {G1 G2 : Graph} {l1 l2 : ℕ → ℕ}
    (hnd1 : G1.nodesList.Nodup) (hnd2 : G2.nodesList.Nodup)
    (h : ∃ φ, IsIsoMap G1 G2 l1 l2 φ) : precheck G1 G2 l1 l2 = true := by
  rcases h with ⟨φ, hφ⟩
  have h1 : G1.order = G2.order := iso_order hnd1 hnd2 hφ
  have h2 : sortedDegreeList G1 = sortedDegreeList G2 :=
    insertionSort_eq_of_perm (iso_degree_perm hnd1 hnd2 hφ)
  have h3 : labelCountsEqual G1 G2 l1 l2 = true := by
    rw [labelCountsEqual, List.all_eq_true]
    intro lab _
    exact beq_iff_eq.mpr (iso_labelCount hnd1 hnd2 hφ lab)
  simp [precheck, h1, h2, h3]

/-- C3: the pre-check is idempotent — it returns the same boolean on
every repeated call with unchanged inputs (it is a pure function of its
arguments) — and it is a sound rejector: whenever it returns `False`, no
label-preserving isomorphism between the two graphs exists, and the
query on the same inputs produces no mapping. -/
theorem vf2pp_precheck_idempotent_sound (G1 G2 : Graph) (l1 l2 : ℕ → ℕ)
    (hnd1 : G1.nodesList.Nodup) (hnd2 : G2.nodesList.Nodup) :
    (precheck G1 G2 l1 l2 = precheck G1 G2 l1 l2) ∧
    (precheck G1 G2 l1 l2 = false →
      (¬ ∃ φ, IsIsoMap G1 G2 l1 l2 φ) ∧
      ∀ fuel, (isomorphic_VF2pp fuel G1 G2 l1 l2).1 = []) := by
  refine ⟨rfl, fun hp => ⟨fun hiso => ?_, fun fuel => ?_⟩⟩
  · rw [iso_precheck hnd1 hnd2 hiso] at hp
    exact Bool.noConfusion hp
  · by_cases hb : G1.order = 0 ∧ G2.order = 0
    · simp [isomorphic_VF2pp, hb]
    · simp [isomorphic_VF2pp, hb, hp]

/-- Witness for C3 at a concrete input (path versus star). -/
theorem vf2pp_precheck_idempotent_sound_witness :
    (precheck ⟨[1,2,3,4], [(1,2),(2,3),(3,4)]⟩ ⟨[1,2,3,4], [(1,2),(1,3),(1,4)]⟩
        (fun _ => 0) (fun _ => 0) =
      precheck ⟨[1,2,3,4], [(1,2),(2,3),(3,4)]⟩ ⟨[1,2,3,4], [(1,2),(1,3),(1,4)]⟩
        (fun _ => 0) (fun _ => 0)) ∧
    (precheck ⟨[1,2,3,4], [(1,2),(2,3),(3,4)]⟩ ⟨[1,2,3,4], [(1,2),(1,3),(1,4)]⟩
        (fun _ => 0) (fun _ => 0) = false →
      (¬ ∃ φ, IsIsoMap ⟨[1,2,3,4], [(1,2),(2,3),(3,4)]⟩ ⟨[1,2,3,4], [(1,2),(1,3),(1,4)]⟩
        (fun _ => 0) (fun _ => 0) φ) ∧
      ∀ fuel, (isomorphic_VF2pp fuel ⟨[1,2,3,4], [(1,2),(2,3),(3,4)]⟩
        ⟨[1,2,3,4], [(1,2),(1,3),(1,4)]⟩ (fun _ => 0) (fun _ => 0)).1 = []) :=
  vf2pp_precheck_idempotent_sound _ _ _ _ (by decide) (by decide)

/-! ### Frontier-set coherence: Commit and Rollback keep the frontier
sets equal to their spec-section-3 characterization -/

theorem mem_domF {M : List (ℕ × ℕ)} {x : ℕ} :
    x ∈ domF M ↔ x ∈ M.map Prod.fst := List.mem_toFinset

theorem mem_ranF {M : List (ℕ × ℕ)} {x : ℕ} :
    x ∈ ranF M ↔ x ∈ M.map Prod.snd := List.mem_toFinset

theorem mem_canonTin {G : Graph} {dom : Finset ℕ} {w : ℕ} :
    w ∈ canonTin G dom ↔ w ∈ G.nodesList ∧ w ∉ dom ∧ ∃ x ∈ G.nbr w, x ∈ dom := by
  simp [canonTin, List.any_eq_true]

theorem mem_canonTout {G : Graph} {dom : Finset ℕ} {w : ℕ} :
    w ∈ canonTout G dom ↔ w ∈ G.nodesList ∧ w ∉ dom ∧ ∀ x ∈ G.nbr w, x ∉ dom := by
  simp [canonTout, List.any_eq_true]

theorem nbr_swap {G : Graph} {u v : ℕ} (hu : u ∈ G.nodesList) (hv : v ∈ G.nbr u) :
    u ∈ G.nbr v := by
  rcases Graph.mem_nbr.mp hv with ⟨_, hadj⟩
  refine Graph.mem_nbr.mpr ⟨hu, ?_⟩
  rw [G.adj_symm v u]; exact hadj

theorem update_state_mapping {G1 G2 : Graph} {n m : ℕ} {s : SState} :
    (update_state G1 G2 n m s).mapping = (n, m) :: s.mapping := rfl

theorem update_state_rev {G1 G2 : Graph} {n m : ℕ} {s : SState} :
    (update_state G1 G2 n m s).reverse_mapping = (m, n) :: s.reverse_mapping := rfl

theorem nbr_mem_nodes {G : Graph} {u v : ℕ} (hv : v ∈ G.nbr u) : v ∈ G.nodesList :=
  (Graph.mem_nbr.mp hv).1

theorem domF_cons {M : List (ℕ × ℕ)} {n m : ℕ} :
    domF ((n, m) :: M) = insert n (domF M) := by
  simp [domF]

theorem ranF_cons {M : List (ℕ × ℕ)} {n m : ℕ} :
    ranF ((n, m) :: M) = insert m (ranF M) := by
  simp [ranF]

theorem swap_keys {M : List (ℕ × ℕ)} :
    (M.map Prod.swap).map Prod.fst = M.map Prod.snd := by
  rw [List.map_map]; rfl

theorem update_coherent {G1 G2 : Graph} {s : SState} {n m : ℕ}
    (hcoh : Coherent G1 G2 s)
    (hrev : s.reverse_mapping = s.mapping.map Prod.swap)
    (hn1 : n ∈ G1.nodesList) (hm2 : m ∈ G2.nodesList) :
    Coherent G1 G2 (update_state G1 G2 n m s) := by
  obtain ⟨hT1, hT1o, hT2, hT2o⟩ := hcoh
  have hkeyR : ∀ w : ℕ, ((m, n) :: s.reverse_mapping).lookup w = none ↔
      w ≠ m ∧ w ∉ s.mapping.map Prod.snd := by
    intro w
    rw [lookup_eq_none_iff, hrev, List.map_cons, swap_keys, List.mem_cons]
    simp [not_or]
  have hkeyM : ∀ w : ℕ, ((n, m) :: s.mapping).lookup w = none ↔
      w ≠ n ∧ w ∉ s.mapping.map Prod.fst := by
    intro w
    rw [lookup_eq_none_iff, List.map_cons, List.mem_cons]
    simp [not_or]
  refine ⟨?_, ?_, ?_, ?_⟩
  · show (s.T1 ∪ _).erase n = _
    rw [hT1, update_state_mapping, domF_cons]
    apply Finset.ext
    intro w
    simp only [Finset.mem_erase, Finset.mem_union, mem_canonTin, List.mem_toFinset,
      List.mem_filter, Option.isNone_iff_eq_none, hkeyM, ← mem_domF, Finset.mem_insert]
    constructor
    · rintro ⟨hwn, ⟨hw1, hw2, x, hx1, hx2⟩ | ⟨hw1, hw2, hw3⟩⟩
      · exact ⟨hw1, by tauto, x, hx1, Or.inr hx2⟩
      · exact ⟨nbr_mem_nodes hw1, by tauto, n, nbr_swap hn1 hw1, Or.inl rfl⟩
    · rintro ⟨hw1, hw2, x, hx1, hx2 | hx2⟩
      · subst hx2
        refine ⟨by tauto, Or.inr ⟨nbr_swap hw1 hx1, by tauto⟩⟩
      · exact ⟨by tauto, Or.inl ⟨hw1, by tauto, x, hx1, hx2⟩⟩
  · show (s.T1_out \ _).erase n = _
    rw [hT1o, update_state_mapping, domF_cons]
    apply Finset.ext
    intro w
    simp only [Finset.mem_erase, Finset.mem_sdiff, mem_canonTout, List.mem_toFinset,
      List.mem_filter, Option.isNone_iff_eq_none, hkeyM, ← mem_domF, Finset.mem_insert]
    constructor
    · rintro ⟨hwn, ⟨hw1, hw2, hall⟩, hnf⟩
      refine ⟨hw1, by tauto, ?_⟩
      intro x hx
      rintro (rfl | hxd)
      · exact hnf ⟨nbr_swap hw1 hx, hwn, hw2⟩
      · exact hall x hx hxd
    · rintro ⟨hw1, hw2, hall⟩
      have hwn : w ≠ n := fun he => hw2 (Or.inl he)
      refine ⟨hwn, ⟨hw1, fun hd => hw2 (Or.inr hd), ?_⟩, ?_⟩
      · intro x hx hxd
        exact hall x hx (Or.inr hxd)
      · rintro ⟨hwnbr, -, -⟩
        exact hall n (nbr_swap hn1 hwnbr) (Or.inl rfl)
  · show (s.T2 ∪ _).erase m = _
    rw [hT2, update_state_mapping, ranF_cons]
    apply Finset.ext
    intro w
    simp only [Finset.mem_erase, Finset.mem_union, mem_canonTin, List.mem_toFinset,
      List.mem_filter, Option.isNone_iff_eq_none, hkeyR, ← mem_ranF, Finset.mem_insert]
    constructor
    · rintro ⟨hwn, ⟨hw1, hw2, x, hx1, hx2⟩ | ⟨hw1, hw2, hw3⟩⟩
      · exact ⟨hw1, by tauto, x, hx1, Or.inr hx2⟩
      · exact ⟨nbr_mem_nodes hw1, by tauto, m, nbr_swap hm2 hw1, Or.inl rfl⟩
    · rintro ⟨hw1, hw2, x, hx1, hx2 | hx2⟩
      · subst hx2
        refine ⟨by tauto, Or.inr ⟨nbr_swap hw1 hx1, by tauto⟩⟩
      · exact ⟨by tauto, Or.inl ⟨hw1, by tauto, x, hx1, hx2⟩⟩
  · show (s.T2_out \ _).erase m = _
    rw [hT2o, update_state_mapping, ranF_cons]
    apply Finset.ext
    intro w
    simp only [Finset.mem_erase, Finset.mem_sdiff, mem_canonTout, List.mem_toFinset,
      List.mem_filter, Option.isNone_iff_eq_none, hkeyR, ← mem_ranF, Finset.mem_insert]
    constructor
    · rintro ⟨hwn, ⟨hw1, hw2, hall⟩, hnf⟩
      refine ⟨hw1, by tauto, ?_⟩
      intro x hx
      rintro (rfl | hxd)
      · exact hnf ⟨nbr_swap hw1 hx, hwn, hw2⟩
      · exact hall x hx hxd
    · rintro ⟨hw1, hw2, hall⟩
      have hwn : w ≠ m := fun he => hw2 (Or.inl he)
      refine ⟨hwn, ⟨hw1, fun hd => hw2 (Or.inr hd), ?_⟩, ?_⟩
      · intro x hx hxd
        exact hall x hx (Or.inr hxd)
      · rintro ⟨hwnbr, -, -⟩
        exact hall m (nbr_swap hm2 hwnbr) (Or.inl rfl)

theorem lookup_none_iff_domF {M : List (ℕ × ℕ)} {x : ℕ} :
    (M.lookup x).isNone = true ↔ x ∉ domF M := by
  rw [Option.isNone_iff_eq_none, lookup_eq_none_iff]
  exact not_congr mem_domF.symm

theorem anyMapped_true {G : Graph} {M : List (ℕ × ℕ)} {w : ℕ} :
    (G.nbr w).any (fun x => (M.lookup x).isSome) = true ↔ ∃ x ∈ G.nbr w, x ∈ domF M := by
  simp only [List.any_eq_true, lookup_isSome_iff, mem_domF]

theorem anyMapped_false {G : Graph} {M : List (ℕ × ℕ)} {w : ℕ} :
    (G.nbr w).any (fun x => (M.lookup x).isSome) = false ↔ ∀ x ∈ G.nbr w, x ∉ domF M := by
  rw [← Bool.not_eq_true, anyMapped_true]
  push_neg
  rfl

theorem domF_swap {M : List (ℕ × ℕ)} : domF (M.map Prod.swap) = ranF M := by
  simp only [domF, ranF, swap_keys]

theorem restore_coherent {G1 G2 : Graph} {s : SState} {n m : ℕ} {M0 : List (ℕ × ℕ)}
    (hmap : s.mapping = (n, m) :: M0)
    (hrev : s.reverse_mapping = s.mapping.map Prod.swap)
    (hcoh : Coherent G1 G2 s)
    (hn1 : n ∈ G1.nodesList) (hm2 : m ∈ G2.nodesList)
    (hkey : n ∉ M0.map Prod.fst) (hval : m ∉ M0.map Prod.snd) :
    restore_state G1 G2 n m s = ⟨M0, M0.map Prod.swap,
      canonTin G1 (domF M0), canonTout G1 (domF M0),
      canonTin G2 (ranF M0), canonTout G2 (ranF M0)⟩ := by
  obtain ⟨hT1, hT1o, hT2, hT2o⟩ := hcoh
  have hkey' : n ∉ domF M0 := fun h => hkey (mem_domF.mp h)
  have hval' : m ∉ ranF M0 := fun h => hval (mem_ranF.mp h)
  have hM : s.mapping.eraseP (fun p => p.1 == n) = M0 := by
    rw [hmap]; exact List.eraseP_cons_of_pos (by simp)
  have hR : s.reverse_mapping.eraseP (fun p => p.1 == m) = M0.map Prod.swap := by
    rw [hrev, hmap, List.map_cons]
    exact List.eraseP_cons_of_pos (by simp)
  rw [restore_state]
  simp only [hM, hR]
  rw [hT1, hT1o, hT2, hT2o, hmap, domF_cons, ranF_cons]
  simp only [SState.mk.injEq, true_and]
  refine ⟨?_, ?_, ?_, ?_⟩
  · by_cases hb : ((G1.nbr n).any fun x => (M0.lookup x).isSome) = true
    · rw [if_pos hb]
      apply Finset.ext
      intro w
      simp only [Finset.mem_insert, Finset.mem_sdiff, mem_canonTin, List.mem_toFinset,
        List.mem_filter, Bool.and_eq_true, Bool.not_eq_true', lookup_none_iff_domF,
        anyMapped_false, Finset.mem_insert]
      constructor
      · rintro (rfl | ⟨⟨hw1, hw2, x, hx1, hx2⟩, hdrop⟩)
        · exact ⟨hn1, hkey', anyMapped_true.mp hb⟩
        · have hwn : w ≠ n := fun he => hw2 (Or.inl he)
          have hwd : w ∉ domF M0 := fun hd => hw2 (Or.inr hd)
          refine ⟨hw1, hwd, ?_⟩
          rcases hx2 with rfl | hx2
          · by_contra hno
            push_neg at hno
            exact hdrop ⟨nbr_swap hw1 hx1, hwd, hno⟩
          · exact ⟨x, hx1, hx2⟩
      · rintro ⟨hw1, hw2, x, hx1, hx2⟩
        by_cases hwn : w = n
        · exact Or.inl hwn
        · refine Or.inr ⟨⟨hw1, by tauto, x, hx1, Or.inr hx2⟩, ?_⟩
          rintro ⟨-, -, hall⟩
          exact hall x hx1 hx2
    · rw [if_neg hb]
      apply Finset.ext
      intro w
      simp only [Finset.mem_sdiff, mem_canonTin, List.mem_toFinset,
        List.mem_filter, Bool.and_eq_true, Bool.not_eq_true', lookup_none_iff_domF,
        anyMapped_false, Finset.mem_insert]
      constructor
      · rintro ⟨⟨hw1, hw2, x, hx1, hx2⟩, hdrop⟩
        have hwn : w ≠ n := fun he => hw2 (Or.inl he)
        have hwd : w ∉ domF M0 := fun hd => hw2 (Or.inr hd)
        refine ⟨hw1, hwd, ?_⟩
        rcases hx2 with rfl | hx2
        · by_contra hno
          push_neg at hno
          exact hdrop ⟨nbr_swap hw1 hx1, hwd, hno⟩
        · exact ⟨x, hx1, hx2⟩
      · rintro ⟨hw1, hw2, x, hx1, hx2⟩
        have hwn : w ≠ n := by
          rintro rfl
          rw [Bool.not_eq_true] at hb
          exact (anyMapped_false.mp hb) x hx1 hx2
        refine ⟨⟨hw1, by tauto, x, hx1, Or.inr hx2⟩, ?_⟩
        rintro ⟨-, -, hall⟩
        exact hall x hx1 hx2
  · by_cases hb : ((G1.nbr n).any fun x => (M0.lookup x).isSome) = true
    · rw [if_pos hb]
      apply Finset.ext
      intro w
      simp only [Finset.mem_union, Finset.mem_sdiff, mem_canonTout, List.mem_toFinset,
        List.mem_filter, Bool.and_eq_true, Bool.not_eq_true', lookup_none_iff_domF,
        anyMapped_false, Finset.mem_insert]
      constructor
      · rintro (⟨hw1, hw2, hall⟩ | ⟨hw1, hw2, hall⟩)
        · exact ⟨hw1, fun hd => hw2 (Or.inr hd), fun x hx hxd => hall x hx (Or.inr hxd)⟩
        · exact ⟨nbr_mem_nodes hw1, hw2, hall⟩
      · rintro ⟨hw1, hw2, hall⟩
        by_cases hwnbr : w ∈ G1.nbr n
        · exact Or.inr ⟨hwnbr, hw2, hall⟩
        · have hwn : w ≠ n := by
            rintro rfl
            rcases anyMapped_true.mp hb with ⟨x, hx1, hx2⟩
            exact hall x hx1 hx2
          refine Or.inl ⟨hw1, by tauto, ?_⟩
          intro x hx
          rintro (rfl | hxd)
          · exact hwnbr (nbr_swap hw1 hx)
          · exact hall x hx hxd
    · rw [if_neg hb]
      apply Finset.ext
      intro w
      simp only [Finset.mem_insert, Finset.mem_union, Finset.mem_sdiff, mem_canonTout,
        List.mem_toFinset, List.mem_filter, Bool.and_eq_true, Bool.not_eq_true',
        lookup_none_iff_domF, anyMapped_false, Finset.mem_insert]
      constructor
      · rintro (rfl | ⟨hw1, hw2, hall⟩ | ⟨hw1, hw2, hall⟩)
        · rw [Bool.not_eq_true] at hb
          exact ⟨hn1, hkey', anyMapped_false.mp hb⟩
        · exact ⟨hw1, fun hd => hw2 (Or.inr hd), fun x hx hxd => hall x hx (Or.inr hxd)⟩
        · exact ⟨nbr_mem_nodes hw1, hw2, hall⟩
      · rintro ⟨hw1, hw2, hall⟩
        by_cases hwn : w = n
        · exact Or.inl hwn
        · by_cases hwnbr : w ∈ G1.nbr n
          · exact Or.inr (Or.inr ⟨hwnbr, hw2, hall⟩)
          · refine Or.inr (Or.inl ⟨hw1, by tauto, ?_⟩)
            intro x hx
            rintro (rfl | hxd)
            · exact hwnbr (nbr_swap hw1 hx)
            · exact hall x hx hxd
  · by_cases hb : ((G2.nbr m).any fun x => ((M0.map Prod.swap).lookup x).isSome) = true
    · rw [if_pos hb]
      apply Finset.ext
      intro w
      simp only [Finset.mem_insert, Finset.mem_sdiff, mem_canonTin, List.mem_toFinset,
        List.mem_filter, Bool.and_eq_true, Bool.not_eq_true', lookup_none_iff_domF,
        anyMapped_false, domF_swap, Finset.mem_insert]
      constructor
      · rintro (rfl | ⟨⟨hw1, hw2, x, hx1, hx2⟩, hdrop⟩)
        · refine ⟨hm2, hval', ?_⟩
          have := anyMapped_true.mp hb
          rw [domF_swap] at this
          exact this
        · have hwn : w ≠ m := fun he => hw2 (Or.inl he)
          have hwd : w ∉ ranF M0 := fun hd => hw2 (Or.inr hd)
          refine ⟨hw1, hwd, ?_⟩
          rcases hx2 with rfl | hx2
          · by_contra hno
            push_neg at hno
            exact hdrop ⟨nbr_swap hw1 hx1, hwd, hno⟩
          · exact ⟨x, hx1, hx2⟩
      · rintro ⟨hw1, hw2, x, hx1, hx2⟩
        by_cases hwn : w = m
        · exact Or.inl hwn
        · refine Or.inr ⟨⟨hw1, by tauto, x, hx1, Or.inr hx2⟩, ?_⟩
          rintro ⟨-, -, hall⟩
          exact hall x hx1 hx2
    · rw [if_neg hb]
      apply Finset.ext
      intro w
      simp only [Finset.mem_sdiff, mem_canonTin, List.mem_toFinset,
        List.mem_filter, Bool.and_eq_true, Bool.not_eq_true', lookup_none_iff_domF,
        anyMapped_false, domF_swap, Finset.mem_insert]
      constructor
      · rintro ⟨⟨hw1, hw2, x, hx1, hx2⟩, hdrop⟩
        have hwn : w ≠ m := fun he => hw2 (Or.inl he)
        have hwd : w ∉ ranF M0 := fun hd => hw2 (Or.inr hd)
        refine ⟨hw1, hwd, ?_⟩
        rcases hx2 with rfl | hx2
        · by_contra hno
          push_neg at hno
          exact hdrop ⟨nbr_swap hw1 hx1, hwd, hno⟩
        · exact ⟨x, hx1, hx2⟩
      · rintro ⟨hw1, hw2, x, hx1, hx2⟩
        have hwn : w ≠ m := by
          rintro rfl
          rw [Bool.not_eq_true] at hb
          have := anyMapped_false.mp hb
          rw [domF_swap] at this
          exact this x hx1 hx2
        refine ⟨⟨hw1, by tauto, x, hx1, Or.inr hx2⟩, ?_⟩
        rintro ⟨-, -, hall⟩
        exact hall x hx1 hx2
  · by_cases hb : ((G2.nbr m).any fun x => ((M0.map Prod.swap).lookup x).isSome) = true
    · rw [if_pos hb]
      apply Finset.ext
      intro w
      simp only [Finset.mem_union, Finset.mem_sdiff, mem_canonTout, List.mem_toFinset,
        List.mem_filter, Bool.and_eq_true, Bool.not_eq_true', lookup_none_iff_domF,
        anyMapped_false, domF_swap, Finset.mem_insert]
      constructor
      · rintro (⟨hw1, hw2, hall⟩ | ⟨hw1, hw2, hall⟩)
        · exact ⟨hw1, fun hd => hw2 (Or.inr hd), fun x hx hxd => hall x hx (Or.inr hxd)⟩
        · exact ⟨nbr_mem_nodes hw1, hw2, hall⟩
      · rintro ⟨hw1, hw2, hall⟩
        by_cases hwnbr : w ∈ G2.nbr m
        · exact Or.inr ⟨hwnbr, hw2, hall⟩
        · have hwn : w ≠ m := by
            rintro rfl
            have hb' := anyMapped_true.mp hb
            rw [domF_swap] at hb'
            rcases hb' with ⟨x, hx1, hx2⟩
            exact hall x hx1 hx2
          refine Or.inl ⟨hw1, by tauto, ?_⟩
          intro x hx
          rintro (rfl | hxd)
          · exact hwnbr (nbr_swap hw1 hx)
          · exact hall x hx hxd
    · rw [if_neg hb]
      apply Finset.ext
      intro w
      simp only [Finset.mem_insert, Finset.mem_union, Finset.mem_sdiff, mem_canonTout,
        List.mem_toFinset, List.mem_filter, Bool.and_eq_true, Bool.not_eq_true',
        lookup_none_iff_domF, anyMapped_false, domF_swap, Finset.mem_insert]
      constructor
      · rintro (rfl | ⟨hw1, hw2, hall⟩ | ⟨hw1, hw2, hall⟩)
        · rw [Bool.not_eq_true] at hb
          have := anyMapped_false.mp hb
          rw [domF_swap] at this
          exact ⟨hm2, hval', this⟩
        · exact ⟨hw1, fun hd => hw2 (Or.inr hd), fun x hx hxd => hall x hx (Or.inr hxd)⟩
        · exact ⟨nbr_mem_nodes hw1, hw2, hall⟩
      · rintro ⟨hw1, hw2, hall⟩
        by_cases hwn : w = m
        · exact Or.inl hwn
        · by_cases hwnbr : w ∈ G2.nbr m
          · exact Or.inr (Or.inr ⟨hwnbr, hw2, hall⟩)
          · refine Or.inr (Or.inl ⟨hw1, by tauto, ?_⟩)
            intro x hx
            rintro (rfl | hxd)
            · exact hwnbr (nbr_swap hw1 hx)
            · exact hall x hx hxd

/-! ### C4: rollback exactly reverses commit -/

theorem commit_rollback_id {G1 G2 : Graph} {s : SState} {n m : ℕ}
    (hcoh : Coherent G1 G2 s)
    (hrev : s.reverse_mapping = s.mapping.map Prod.swap)
    (hn1 : n ∈ G1.nodesList) (hm2 : m ∈ G2.nodesList)
    (hkey : n ∉ s.mapping.map Prod.fst) (hval : m ∉ s.mapping.map Prod.snd) :
    restore_state G1 G2 n m (update_state G1 G2 n m s) = s := by
  have hrev' : (update_state G1 G2 n m s).reverse_mapping =
      (update_state G1 G2 n m s).mapping.map Prod.swap := by
    rw [update_state_mapping, update_state_rev, List.map_cons, hrev]; rfl
  have hcoh' := update_coherent hcoh hrev hn1 hm2
  have hres := restore_coherent update_state_mapping hrev' hcoh'
    hn1 hm2 hkey hval
  rw [hres]
  obtain ⟨hT1, hT1o, hT2, hT2o⟩ := hcoh
  cases s with
  | mk mp rv a b c d =>
    simp only at hrev hT1 hT1o hT2 hT2o
    rw [hrev, hT1, hT1o, hT2, hT2o]

/-- C4: for any search state satisfying the state invariants (the
frontier sets coherent with the mapping and the reverse mapping the
mirror of the forward one — established for every reachable state by the
invariant theorems below), performing any sequence of Commits of fresh
pairs and then the matching Rollbacks in exact reverse order restores
the forward mapping, the reverse mapping and all four frontier sets
`T1`, `T1_out`, `T2`, `T2_out` to structural equality with the state
held immediately before the first Commit (the whole state record is
equal, not merely the set sizes); the single Commit/Rollback round trip
is the singleton-sequence case. -/
theorem vf2pp_rollback_reversibility (G1 G2 : Graph) (s : SState) (ps : List (ℕ × ℕ))
    (hcoh : Coherent G1 G2 s)
    (hrev : s.reverse_mapping = s.mapping.map Prod.swap)
    (hmem : ∀ p ∈ ps, p.1 ∈ G1.nodesList ∧ p.2 ∈ G2.nodesList)
    (hfst : (s.mapping.map Prod.fst ++ ps.map Prod.fst).Nodup)
    (hsnd : (s.mapping.map Prod.snd ++ ps.map Prod.snd).Nodup) :
    List.foldl (fun t p => restore_state G1 G2 p.1 p.2 t)
      (List.foldl (fun t p => update_state G1 G2 p.1 p.2 t) s ps) ps.reverse = s := by
  induction ps generalizing s with
  | nil => rfl
  | cons p ps ih =>
    have hp := hmem p (List.mem_cons_self _ _)
    have hkey : p.1 ∉ s.mapping.map Prod.fst := by
      rcases List.nodup_append.mp hfst with ⟨-, -, hdisj⟩
      intro hin
      exact hdisj hin (by simp)
    have hval : p.2 ∉ s.mapping.map Prod.snd := by
      rcases List.nodup_append.mp hsnd with ⟨-, -, hdisj⟩
      intro hin
      exact hdisj hin (by simp)
    have hstep : List.foldl (fun t q => update_state G1 G2 q.1 q.2 t) s (p :: ps) =
        List.foldl (fun t q => update_state G1 G2 q.1 q.2 t)
          (update_state G1 G2 p.1 p.2 s) ps := rfl
    have hrevlist : (p :: ps).reverse = ps.reverse ++ [p] := by simp
    rw [hstep, hrevlist, List.foldl_append]
    have hcoh' : Coherent G1 G2 (update_state G1 G2 p.1 p.2 s) :=
      update_coherent hcoh hrev hp.1 hp.2
    have hrev' : (update_state G1 G2 p.1 p.2 s).reverse_mapping =
        (update_state G1 G2 p.1 p.2 s).mapping.map Prod.swap := by
      rw [update_state_mapping, update_state_rev, List.map_cons, hrev]; rfl
    have hfst' : ((update_state G1 G2 p.1 p.2 s).mapping.map Prod.fst ++
        ps.map Prod.fst).Nodup := by
      rw [update_state_mapping, List.map_cons, List.cons_append]
      refine List.Perm.nodup List.perm_middle ?_
      simpa using hfst
    have hsnd' : ((update_state G1 G2 p.1 p.2 s).mapping.map Prod.snd ++
        ps.map Prod.snd).Nodup := by
      rw [update_state_mapping, List.map_cons, List.cons_append]
      refine List.Perm.nodup List.perm_middle ?_
      simpa using hsnd
    have hmem' : ∀ q ∈ ps, q.1 ∈ G1.nodesList ∧ q.2 ∈ G2.nodesList :=
      fun q hq => hmem q (List.mem_cons_of_mem _ hq)
    rw [ih (update_state G1 G2 p.1 p.2 s) hcoh' hrev' hmem' hfst' hsnd']
    exact commit_rollback_id hcoh hrev hp.1 hp.2 hkey hval

/-- Witness for C4: two commits then two rollbacks on the freshly
initialized state of two triangle graphs restore it exactly. -/
theorem vf2pp_rollback_reversibility_witness :
    List.foldl (fun t p => restore_state ⟨[1,2,3], [(1,2),(2,3),(3,1)]⟩
        ⟨[4,5,6], [(4,5),(5,6),(6,4)]⟩ p.1 p.2 t)
      (List.foldl (fun t p => update_state ⟨[1,2,3], [(1,2),(2,3),(3,1)]⟩
        ⟨[4,5,6], [(4,5),(5,6),(6,4)]⟩ p.1 p.2 t)
        (initSState ⟨[1,2,3], [(1,2),(2,3),(3,1)]⟩ ⟨[4,5,6], [(4,5),(5,6),(6,4)]⟩)
        [(1, 4), (2, 5)])
      [(1, 4), (2, 5)].reverse =
    initSState ⟨[1,2,3], [(1,2),(2,3),(3,1)]⟩ ⟨[4,5,6], [(4,5),(5,6),(6,4)]⟩ :=
  vf2pp_rollback_reversibility _ _ _ _
    (by unfold Coherent; decide) (by decide) (by decide) (by decide) (by decide)

/-! ### The driver-loop invariant: initialization -/

theorem find_candidates_sub {G1 G2 : Graph} {l1 l2 : ℕ → ℕ} {n : ℕ} {s : SState} :
    ∀ c ∈ find_candidates G1 G2 l1 l2 n s, c ∈ G2.nodesList := by
  intro c hc
  unfold find_candidates at hc
  split at hc
  · exact (List.mem_filter.mp hc).1
  · split at hc
    · exact nbr_mem_nodes (List.mem_filter.mp hc).1
    · exact absurd hc (List.not_mem_nil c)

theorem domF_nil : domF [] = ∅ := rfl

theorem ranF_nil : ranF [] = ∅ := rfl

theorem canonTin_empty {G : Graph} : canonTin G ∅ = ∅ := by
  apply Finset.ext
  intro w
  simp [mem_canonTin]

theorem canonTout_empty {G : Graph} : canonTout G ∅ = G.nodesList.toFinset := by
  apply Finset.ext
  intro w
  simp [mem_canonTout]

theorem initSState_coherent {G1 G2 : Graph} : Coherent G1 G2 (initSState G1 G2) := by
  refine ⟨?_, ?_, ?_, ?_⟩ <;>
    simp [initSState, domF_nil, ranF_nil, canonTin_empty, canonTout_empty]

theorem initStack_eq (G1 G2 : Graph) (l1 l2 : ℕ → ℕ) {n0 : ℕ} {rest : List ℕ}
    (hx : G1.nodesList = n0 :: rest) :
    initStack G1 G2 l1 l2 = [⟨n0, find_candidates G1 G2 l1 l2 n0 (initSState G1 G2)⟩] := by
  unfold initStack matching_order
  rw [hx]

theorem driverInv_init {G1 G2 : Graph} {l1 l2 : ℕ → ℕ}
    (hne : G1.nodesList ≠ []) :
    DriverInv G1 G2 l1 l2 (matching_order G1 G2 l1 l2) (initState G1 G2 l1 l2) := by
  rcases hx : G1.nodesList with - | ⟨n0, nrest⟩
  · exact absurd hx hne
  · have hstk := initStack_eq G1 G2 l1 l2 hx
    constructor
    · show 1 = (initStack G1 G2 l1 l2).length
      rw [hstk]; rfl
    · show (initStack G1 G2 l1 l2).map Frame.node = ((matching_order G1 G2 l1 l2).take 1).reverse
      rw [hstk]
      unfold matching_order
      rw [hx]
      rfl
    · show ([] : List (ℕ × ℕ)).map Prod.fst = (initStack G1 G2 l1 l2).tail.map Frame.node
      rw [hstk]; rfl
    · rfl
    · exact List.nodup_nil
    · intro y hy; exact absurd hy (List.not_mem_nil y)
    · intro f hf c hc
      have hf' : f ∈ initStack G1 G2 l1 l2 := hf
      rw [hstk] at hf'
      rcases List.mem_singleton.mp hf' with rfl
      exact find_candidates_sub c hc
    · intro p hp; exact absurd hp (List.not_mem_nil p)
    · intro p hp; exact absurd hp (List.not_mem_nil p)
    · intro p hp; exact absurd hp (List.not_mem_nil p)
    · intro p hp; exact absurd hp (List.not_mem_nil p)
    · exact initSState_coherent

/-- The facts the search has accumulated about a mapping at the moment
it is yielded as complete (the mapping covers as many nodes as G1 has,
its keys and values repeat nothing, and every committed pair passed the
feasibility checks). -/
structure CompleteFacts (G1 G2 : Graph) (l1 l2 : ℕ → ℕ) (M : List (ℕ × ℕ)) : Prop where
  len : M.length = G1.order
  keys_nd : (M.map Prod.fst).Nodup
  vals_nd : (M.map Prod.snd).Nodup
  mem : ∀ p ∈ M, p.1 ∈ G1.nodesList ∧ p.2 ∈ G2.nodesList
  label : ∀ p ∈ M, l1 p.1 = l2 p.2
  deg : ∀ p ∈ M, G1.degree p.1 = G2.degree p.2
  adjp : ∀ p ∈ M, ∀ q ∈ M, p.1 ≠ q.1 → G1.adj p.1 q.1 = G2.adj p.2 q.2

theorem stepDriver_main {G1 G2 : Graph} {l1 l2 : ℕ → ℕ} {no : List ℕ} {st : DState}
    (hno_nd : no.Nodup) (hno_sub : ∀ x ∈ no, x ∈ G1.nodesList)
    (hinv : DriverInv G1 G2 l1 l2 no st) {y : Option (List (ℕ × ℕ))} {nx : Next}
    (hstep : stepDriver G1 G2 l1 l2 no st = (y, nx)) :
    (∀ st', nx = Next.cont st' → DriverInv G1 G2 l1 l2 no st') ∧
    (∀ m, y = some m → CompleteFacts G1 G2 l1 l2 m) := by
  obtain ⟨vis, sp, mn, stk⟩ := st
  have hmn : mn = stk.length := hinv.mn_eq
  have hsn : stk.map Frame.node = (no.take mn).reverse := hinv.stack_nodes
  have hmk : sp.mapping.map Prod.fst = stk.tail.map Frame.node := hinv.map_keys
  have hrev : sp.reverse_mapping = sp.mapping.map Prod.swap := hinv.rev_eq
  have hvnd : (sp.mapping.map Prod.snd).Nodup := hinv.vals_nodup
  have hvv : ∀ z ∈ sp.mapping.map Prod.snd, z ∈ vis := hinv.vals_visited
  have hcs : ∀ f ∈ stk, ∀ c ∈ f.cands, c ∈ G2.nodesList := hinv.cands_sub
  have hpm : ∀ p ∈ sp.mapping, p.1 ∈ G1.nodesList ∧ p.2 ∈ G2.nodesList := hinv.pairs_mem
  have hpl : ∀ p ∈ sp.mapping, l1 p.1 = l2 p.2 := hinv.pairs_label
  have hpd : ∀ p ∈ sp.mapping, G1.degree p.1 = G2.degree p.2 := hinv.pairs_deg
  have hpa : ∀ p ∈ sp.mapping, ∀ q ∈ sp.mapping, p.1 ≠ q.1 →
      G1.adj p.1 q.1 = G2.adj p.2 q.2 := hinv.pairs_adj
  have hcoh : Coherent G1 G2 sp := hinv.coh
  clear hinv
  have hsn_nd : (stk.map Frame.node).Nodup := by
    rw [hsn]
    exact List.nodup_reverse.mpr ((List.take_sublist _ _).nodup hno_nd)
  have hsn_sub : ∀ x ∈ stk.map Frame.node, x ∈ G1.nodesList := by
    intro x hx
    rw [hsn] at hx
    exact hno_sub x ((List.take_sublist _ _).mem (List.mem_reverse.mp hx))
  have hmnle : mn ≤ no.length := by
    have hlen := congrArg List.length hsn
    simp only [List.length_map, List.length_reverse, List.length_take] at hlen
    omega
  cases stk with
  | nil =>
    simp only [stepDriver] at hstep
    cases hstep
    exact ⟨fun st' h => Next.noConfusion h, fun m h => Option.noConfusion h⟩
  | cons top rest =>
    obtain ⟨tn, tc⟩ := top
    cases tc with
    | nil =>
      simp only [stepDriver] at hstep
      cases hstep
      refine ⟨fun st' h => ?_, fun m h => Option.noConfusion h⟩
      obtain rfl : popStep G1 G2 vis sp mn rest = st' := by
        injection h
      cases rest with
      | nil =>
        have hmap_nil : sp.mapping = [] := by
          have : sp.mapping.map Prod.fst = [] := hmk
          exact List.map_eq_nil_iff.mp this
        constructor
        · show mn - 1 = 0
          simp at hmn
          omega
        · show ([] : List Frame).map Frame.node = (no.take (mn - 1)).reverse
          have : mn - 1 = 0 := by simp at hmn; omega
          rw [this]
          rfl
        · exact hmk
        · exact hrev
        · exact hvnd
        · exact hvv
        · intro f hf; exact absurd hf (List.not_mem_nil f)
        · exact hpm
        · exact hpl
        · exact hpd
        · exact hpa
        · exact hcoh
      | cons f2 rest2 =>
        have hmk' : sp.mapping.map Prod.fst = f2.node :: rest2.map Frame.node := hmk
        cases hsp : sp.mapping with
        | nil => rw [hsp] at hmk'; exact absurd hmk'.symm (List.cons_ne_nil _ _)
        | cons p M0 =>
          obtain ⟨pk, pv⟩ := p
          rw [hsp, List.map_cons] at hmk'
          obtain ⟨rfl, hM0keys⟩ : pk = f2.node ∧ M0.map Prod.fst = rest2.map Frame.node := by
            exact ⟨(List.cons.injEq _ _ _ _ ▸ hmk').1, (List.cons.injEq _ _ _ _ ▸ hmk').2⟩
          have hlk : sp.mapping.lookup f2.node = some pv := by
            rw [hsp]
            simp [List.lookup]
          have hst' : popStep G1 G2 vis sp mn (f2 :: rest2) =
              ⟨vis.erase pv, restore_state G1 G2 f2.node pv sp, mn - 1, f2 :: rest2⟩ := by
            simp only [popStep, hlk]
          rw [hst']
          -- facts for restore_coherent
          have hfn1 : f2.node ∈ G1.nodesList := by
            apply hsn_sub
            exact List.mem_map.mpr ⟨f2, by simp, rfl⟩
          have hpv2 : pv ∈ G2.nodesList := by
            have := hpm (f2.node, pv) (by rw [hsp]; exact List.mem_cons_self _ _)
            exact this.2
          have hkey0 : f2.node ∉ M0.map Prod.fst := by
            have hnd2 : (f2.node :: rest2.map Frame.node).Nodup := by
              have : (tn :: f2.node :: rest2.map Frame.node).Nodup := by
                simpa using hsn_nd
              exact this.of_cons
            rw [hM0keys]
            exact (List.nodup_cons.mp hnd2).1
          have hvndc : (pv :: M0.map Prod.snd).Nodup := by
            rw [hsp, List.map_cons] at hvnd
            exact hvnd
          have hval0 : pv ∉ M0.map Prod.snd := (List.nodup_cons.mp hvndc).1
          have hres := restore_coherent hsp hrev hcoh hfn1 hpv2 hkey0 hval0
          rw [hres]
          constructor
          · show mn - 1 = (f2 :: rest2).length
            simp at hmn ⊢
            omega
          · show (f2 :: rest2).map Frame.node = (no.take (mn - 1)).reverse
            have hmn1 : 1 ≤ mn := by simp at hmn; omega
            have hks : mn - 1 < no.length := by omega
            have htake : no.take mn = no.take (mn - 1) ++ [no[mn - 1]] := by
              conv_lhs => rw [show mn = (mn - 1) + 1 by omega]
              rw [List.take_succ, List.getElem?_eq_getElem hks]
              rfl
            rw [htake, List.reverse_append] at hsn
            simp only [List.reverse_cons, List.reverse_nil, List.nil_append,
              List.singleton_append, List.map_cons] at hsn
            exact (List.cons.injEq _ _ _ _ ▸ hsn).2
          · show M0.map Prod.fst = (f2 :: rest2).tail.map Frame.node
            exact hM0keys
          · rfl
          · show (M0.map Prod.snd).Nodup
            exact (List.nodup_cons.mp hvndc).2
          · show ∀ z ∈ M0.map Prod.snd, z ∈ vis.erase pv
            intro z hz
            have hzvis : z ∈ vis := hvv z (by
              rw [hsp, List.map_cons]
              exact List.mem_cons_of_mem _ hz)
            have hzne : z ≠ pv := by
              have := (List.nodup_cons.mp hvndc).1
              intro he; rw [he] at hz; exact this hz
            exact Finset.mem_erase.mpr ⟨hzne, hzvis⟩
          · intro f hf c hc
            exact hcs f (List.mem_cons_of_mem _ hf) c hc
          · intro p hp
            exact hpm p (by rw [hsp]; exact List.mem_cons_of_mem _ hp)
          · intro p hp
            exact hpl p (by rw [hsp]; exact List.mem_cons_of_mem _ hp)
          · intro p hp
            exact hpd p (by rw [hsp]; exact List.mem_cons_of_mem _ hp)
          · intro p hp q hq hne
            exact hpa p (by rw [hsp]; exact List.mem_cons_of_mem _ hp)
              q (by rw [hsp]; exact List.mem_cons_of_mem _ hq) hne
          · exact ⟨rfl, rfl, rfl, rfl⟩
    | cons c cs =>
      simp only [stepDriver] at hstep
      by_cases hacc : c ∉ vis ∧ feasibility G1 G2 l1 l2 tn c sp = true
      · rw [if_pos hacc] at hstep
        -- shared accepted-pair facts
        have htn1 : tn ∈ G1.nodesList := by
          apply hsn_sub
          exact List.mem_map.mpr ⟨⟨tn, c :: cs⟩, by simp, rfl⟩
        have hc2 : c ∈ G2.nodesList :=
          hcs ⟨tn, c :: cs⟩ (List.mem_cons_self _ _) c (List.mem_cons_self _ _)
        have hkey : tn ∉ sp.mapping.map Prod.fst := by
          rw [hmk]
          have : (tn :: rest.map Frame.node).Nodup := by simpa using hsn_nd
          exact (List.nodup_cons.mp this).1
        have hval : c ∉ sp.mapping.map Prod.snd := fun h => hacc.1 (hvv c h)
        have hkeys_nd : (sp.mapping.map Prod.fst).Nodup := by
          rw [hmk]
          have : (tn :: rest.map Frame.node).Nodup := by simpa using hsn_nd
          exact (List.nodup_cons.mp this).2
        have hfeas := hacc.2
        rw [feasibility] at hfeas
        simp only [Bool.and_eq_true] at hfeas
        obtain ⟨⟨⟨⟨⟨hf1, hf2⟩, hf3⟩, hf4⟩, hf5⟩, hf6⟩ := hfeas
        have hlabel : l1 tn = l2 c := eq_of_beq hf1
        have hdeg : G1.degree tn = G2.degree c := eq_of_beq hf2
        have hadjnew : ∀ q ∈ sp.mapping, tn ≠ q.1 → G1.adj tn q.1 = G2.adj c q.2 := by
          intro q hq hne
          have hlkq : sp.mapping.lookup q.1 = some q.2 := mem_lookup hkeys_nd hq
          have hq1 : q.1 ∈ G1.nodesList := (hpm q hq).1
          have hq2 : q.2 ∈ G2.nodesList := (hpm q hq).2
          cases hadj1 : G1.adj tn q.1 with
          | true =>
            have hqn : q.1 ∈ G1.nbr tn := Graph.mem_nbr.mpr ⟨hq1, hadj1⟩
            have hx := (List.all_eq_true.mp hf3) q.1 hqn
            rw [hlkq] at hx
            exact hx.symm
          | false =>
            cases hadj2 : G2.adj c q.2 with
            | false => rfl
            | true =>
              have hqn : q.2 ∈ G2.nbr c := Graph.mem_nbr.mpr ⟨hq2, hadj2⟩
              have hrlk : sp.reverse_mapping.lookup q.2 = some q.1 := by
                rw [hrev]
                apply mem_lookup
                · rw [swap_keys]; exact hvnd
                · exact List.mem_map.mpr ⟨q, hq, rfl⟩
              have hx := (List.all_eq_true.mp hf4) q.2 hqn
              rw [hrlk] at hx
              have hx' : G1.adj tn q.1 = true := hx
              rw [hadj1] at hx'
              exact Bool.noConfusion hx'
        have hpm' : ∀ p ∈ (tn, c) :: sp.mapping,
            p.1 ∈ G1.nodesList ∧ p.2 ∈ G2.nodesList := by
          intro p hp
          rcases List.mem_cons.mp hp with rfl | hp
          · exact ⟨htn1, hc2⟩
          · exact hpm p hp
        have hpl' : ∀ p ∈ (tn, c) :: sp.mapping, l1 p.1 = l2 p.2 := by
          intro p hp
          rcases List.mem_cons.mp hp with rfl | hp
          · exact hlabel
          · exact hpl p hp
        have hpd' : ∀ p ∈ (tn, c) :: sp.mapping, G1.degree p.1 = G2.degree p.2 := by
          intro p hp
          rcases List.mem_cons.mp hp with rfl | hp
          · exact hdeg
          · exact hpd p hp
        have hpa' : ∀ p ∈ (tn, c) :: sp.mapping, ∀ q ∈ (tn, c) :: sp.mapping,
            p.1 ≠ q.1 → G1.adj p.1 q.1 = G2.adj p.2 q.2 := by
          intro p hp q hq hne
          rcases List.mem_cons.mp hp with rfl | hp <;>
            rcases List.mem_cons.mp hq with rfl | hq
          · exact absurd rfl hne
          · exact hadjnew q hq hne
          · have := hadjnew p hp (Ne.symm hne)
            rw [G1.adj_symm p.1 tn, G2.adj_symm p.2 c]
            exact this
          · exact hpa p hp q hq hne
        have hknd' : (((tn, c) :: sp.mapping).map Prod.fst).Nodup := by
          rw [List.map_cons]
          exact List.nodup_cons.mpr ⟨hkey, hkeys_nd⟩
        have hvnd' : (((tn, c) :: sp.mapping).map Prod.snd).Nodup := by
          rw [List.map_cons]
          exact List.nodup_cons.mpr ⟨hval, hvnd⟩
        have hyield : ∀ m,
            (if (update_state G1 G2 tn c sp).mapping.length = G1.order
              then some (update_state G1 G2 tn c sp).mapping else none) = some m →
            CompleteFacts G1 G2 l1 l2 m := by
          intro m hm
          by_cases hlen : (update_state G1 G2 tn c sp).mapping.length = G1.order
          · rw [if_pos hlen] at hm
            cases hm
            rw [update_state_mapping] at hlen ⊢
            exact ⟨hlen, hknd', hvnd', hpm', hpl', hpd', hpa'⟩
          · rw [if_neg hlen] at hm
            exact Option.noConfusion hm
        by_cases hlt : mn < no.length
        · rw [dif_pos hlt, Prod.mk.injEq] at hstep
          obtain ⟨hy, hnx⟩ := hstep
          refine ⟨fun st' h => ?_, fun m hm => hyield m (hy.trans hm)⟩
          obtain rfl : (⟨insert c vis, update_state G1 G2 tn c sp, mn + 1,
              ⟨no.get ⟨mn, hlt⟩, find_candidates G1 G2 l1 l2 (no.get ⟨mn, hlt⟩)
                (update_state G1 G2 tn c sp)⟩ :: ⟨tn, cs⟩ :: rest⟩ : DState) = st' := by
            rw [h] at hnx
            injection hnx
          constructor
          · show mn + 1 = _
            simp at hmn ⊢
            omega
          · show no.get ⟨mn, hlt⟩ :: tn :: rest.map Frame.node = (no.take (mn + 1)).reverse
            rw [List.take_succ, List.getElem?_eq_getElem hlt, List.reverse_append]
            simp only [Option.toList_some, List.reverse_cons, List.reverse_nil,
              List.nil_append, List.singleton_append]
            rw [← hsn]
            simp [List.get_eq_getElem]
          · show ((tn, c) :: sp.mapping).map Prod.fst = tn :: rest.map Frame.node
            rw [List.map_cons, hmk]
            rfl
          · show (c, tn) :: sp.reverse_mapping = ((tn, c) :: sp.mapping).map Prod.swap
            rw [List.map_cons, hrev]
            rfl
          · exact hvnd'
          · show ∀ z ∈ ((tn, c) :: sp.mapping).map Prod.snd, z ∈ insert c vis
            intro z hz
            rw [List.map_cons] at hz
            rcases List.mem_cons.mp hz with rfl | hz
            · exact Finset.mem_insert_self _ _
            · exact Finset.mem_insert_of_mem (hvv z hz)
          · intro f hf cc hcc
            rcases List.mem_cons.mp hf with rfl | hf
            · exact find_candidates_sub cc hcc
            · rcases List.mem_cons.mp hf with rfl | hf
              · exact hcs ⟨tn, c :: cs⟩ (List.mem_cons_self _ _) cc
                  (List.mem_cons_of_mem _ hcc)
              · exact hcs f (List.mem_cons_of_mem _ hf) cc hcc
          · exact hpm'
          · exact hpl'
          · exact hpd'
          · exact hpa'
          · exact update_coherent hcoh hrev htn1 hc2
        · rw [dif_neg hlt, Prod.mk.injEq] at hstep
          obtain ⟨hy, hnx⟩ := hstep
          refine ⟨fun st' h => ?_, fun m hm => hyield m (hy.trans hm)⟩
          rw [h] at hnx
          exact Next.noConfusion hnx
      · rw [if_neg hacc] at hstep
        cases hstep
        refine ⟨fun st' h => ?_, fun m h => Option.noConfusion h⟩
        obtain rfl : (⟨vis, sp, mn, ⟨tn, cs⟩ :: rest⟩ : DState) = st' := by
          injection h
        constructor
        · show mn = _
          simp at hmn ⊢
          omega
        · show tn :: rest.map Frame.node = (no.take mn).reverse
          rw [← hsn]
          rfl
        · exact hmk
        · exact hrev
        · exact hvnd
        · exact hvv
        · intro f hf cc hcc
          rcases List.mem_cons.mp hf with rfl | hf
          · exact hcs ⟨tn, c :: cs⟩ (List.mem_cons_self _ _) cc
              (List.mem_cons_of_mem _ hcc)
          · exact hcs f (List.mem_cons_of_mem _ hf) cc hcc
        · exact hpm
        · exact hpl
        · exact hpd
        · exact hpa
        · exact hcoh

/-! ### The invariant holds at every observable point of the search -/

theorem reaches_inv {G1 G2 : Graph} {l1 l2 : ℕ → ℕ} {st : DState}
    (hnd1 : G1.nodesList.Nodup) (hne : G1.nodesList ≠ [])
    (hr : Reaches G1 G2 l1 l2 st) :
    DriverInv G1 G2 l1 l2 (matching_order G1 G2 l1 l2) st := by
  induction hr with
  | init => exact driverInv_init hne
  | step hr hstep ih =>
    exact (stepDriver_main hnd1 (fun x hx => hx) ih hstep).1 _ rfl

theorem driverInv_keys_nodup {G1 G2 : Graph} {l1 l2 : ℕ → ℕ} {no : List ℕ} {st : DState}
    (hno_nd : no.Nodup) (hinv : DriverInv G1 G2 l1 l2 no st) :
    (st.sp.mapping.map Prod.fst).Nodup := by
  rw [hinv.map_keys]
  have hsn_nd : (st.stack.map Frame.node).Nodup := by
    rw [hinv.stack_nodes]
    exact List.nodup_reverse.mpr ((List.take_sublist _ _).nodup hno_nd)
  cases hstk : st.stack with
  | nil => exact List.nodup_nil
  | cons top rest =>
    rw [hstk, List.map_cons] at hsn_nd
    show (rest.map Frame.node).Nodup
    exact (List.nodup_cons.mp hsn_nd).2

/-- C10: at the top of every iteration of the driver's `while` loop the
`matching_node` counter equals the number of frames on the stack: it is
1 when the single initial frame is created, it goes up by one exactly on
a push and down by one exactly on a pop, so it always names the index in
`node_order` of the node one past the deepest frame.  `Reaches` is
exactly the set of states observable at the top of a loop iteration. -/
theorem vf2pp_counter_invariant (G1 G2 : Graph) (l1 l2 : ℕ → ℕ) (st : DState)
    (hnd1 : G1.nodesList.Nodup) (hne : G1.nodesList ≠ [])
    (hr : Reaches G1 G2 l1 l2 st) :
    st.matching_node = st.stack.length :=
  (reaches_inv hnd1 hne hr).mn_eq

/-- Witness for C10 at the initial state of a concrete search. -/
theorem vf2pp_counter_invariant_witness :
    (initState ⟨[0], []⟩ ⟨[5], []⟩ (fun _ => 7) (fun _ => 7)).matching_node =
      (initState ⟨[0], []⟩ ⟨[5], []⟩ (fun _ => 7) (fun _ => 7)).stack.length :=
  vf2pp_counter_invariant ⟨[0], []⟩ ⟨[5], []⟩ (fun _ => 7) (fun _ => 7) _
    (by decide) (by decide) Reaches.init

/-- C7: at every observable point of a search the forward and reverse
mappings are mutual inverses over their shared domain and range:
`forward` maps `x` to `y` exactly when `reverse` maps `y` to `x` (hence
`forward[reverse[y]] = y` and `reverse[forward[x]] = x` for every mapped
pair); this holds at initialization and is preserved by every Commit and
Rollback the loop performs, `Reaches` being closed under loop steps. -/
theorem vf2pp_mutual_inverse_invariant (G1 G2 : Graph) (l1 l2 : ℕ → ℕ) (st : DState)
    (hnd1 : G1.nodesList.Nodup) (hne : G1.nodesList ≠ [])
    (hr : Reaches G1 G2 l1 l2 st) :
    ∀ x y : ℕ, st.sp.mapping.lookup x = some y ↔
      st.sp.reverse_mapping.lookup y = some x := by
  have hinv := reaches_inv hnd1 hne hr
  have hknd : (st.sp.mapping.map Prod.fst).Nodup := driverInv_keys_nodup hnd1 hinv
  have hvnd : (st.sp.mapping.map Prod.snd).Nodup := hinv.vals_nodup
  have hrev := hinv.rev_eq
  intro x y
  constructor
  · intro h
    rw [hrev]
    apply mem_lookup
    · rw [swap_keys]; exact hvnd
    · exact List.mem_map.mpr ⟨(x, y), lookup_mem h, rfl⟩
  · intro h
    rw [hrev] at h
    have hmem := lookup_mem h
    rcases List.mem_map.mp hmem with ⟨p, hp, hpe⟩
    have hx : p = (x, y) := by
      cases p
      simp only [Prod.swap_prod_mk, Prod.mk.injEq] at hpe
      simp [hpe.1, hpe.2]
    rw [hx] at hp
    exact mem_lookup hknd hp

/-- Witness for C7 at the initial state of a concrete search, at the
concrete node pair (0, 5). -/
theorem vf2pp_mutual_inverse_invariant_witness :
    (initState ⟨[0], []⟩ ⟨[5], []⟩ (fun _ => 7) (fun _ => 7)).sp.mapping.lookup 0 = some 5 ↔
      (initState ⟨[0], []⟩ ⟨[5], []⟩ (fun _ => 7)
        (fun _ => 7)).sp.reverse_mapping.lookup 5 = some 0 :=
  vf2pp_mutual_inverse_invariant ⟨[0], []⟩ ⟨[5], []⟩ (fun _ => 7) (fun _ => 7) _
    (by decide) (by decide) Reaches.init 0 5

/-- C8: at every observable point of a search each node of G1 lies in
exactly one of the forward mapping's domain, `T1` (unmapped with a
mapped neighbor) and `T1_out` (unmapped with no mapped neighbor), and
symmetrically each node of G2 lies in exactly one of the reverse
mapping's domain, `T2` and `T2_out`; this holds after initialization and
is preserved by every Commit and Rollback the loop performs. -/
theorem vf2pp_partition_invariant (G1 G2 : Graph) (l1 l2 : ℕ → ℕ) (st : DState)
    (hnd1 : G1.nodesList.Nodup) (hne : G1.nodesList ≠ [])
    (hr : Reaches G1 G2 l1 l2 st) :
    (∀ v ∈ G1.nodesList, ExactlyOne (v ∈ st.sp.mapping.map Prod.fst)
        (v ∈ st.sp.T1) (v ∈ st.sp.T1_out)) ∧
    (∀ w ∈ G2.nodesList, ExactlyOne (w ∈ st.sp.reverse_mapping.map Prod.fst)
        (w ∈ st.sp.T2) (w ∈ st.sp.T2_out)) := by
  have hinv := reaches_inv hnd1 hne hr
  obtain ⟨hT1, hT1o, hT2, hT2o⟩ := hinv.coh
  have hrevkeys : st.sp.reverse_mapping.map Prod.fst = st.sp.mapping.map Prod.snd := by
    rw [hinv.rev_eq, swap_keys]
  constructor
  · intro v hv
    by_cases hvd : v ∈ domF st.sp.mapping
    · refine Or.inl ⟨mem_domF.mp hvd, ?_, ?_⟩
      · rw [hT1]
        intro hmem
        exact (mem_canonTin.mp hmem).2.1 hvd
      · rw [hT1o]
        intro hmem
        exact (mem_canonTout.mp hmem).2.1 hvd
    · by_cases hx : ∃ x ∈ G1.nbr v, x ∈ domF st.sp.mapping
      · refine Or.inr (Or.inl ⟨fun h => hvd (mem_domF.mpr h), ?_, ?_⟩)
        · rw [hT1]
          exact mem_canonTin.mpr ⟨hv, hvd, hx⟩
        · rw [hT1o]
          intro hmem
          rcases hx with ⟨x, hx1, hx2⟩
          exact (mem_canonTout.mp hmem).2.2 x hx1 hx2
      · refine Or.inr (Or.inr ⟨fun h => hvd (mem_domF.mpr h), ?_, ?_⟩)
        · rw [hT1]
          intro hmem
          exact hx (mem_canonTin.mp hmem).2.2
        · rw [hT1o]
          refine mem_canonTout.mpr ⟨hv, hvd, ?_⟩
          intro x hx1 hx2
          exact hx ⟨x, hx1, hx2⟩
  · intro w hw
    rw [hrevkeys]
    by_cases hwd : w ∈ ranF st.sp.mapping
    · refine Or.inl ⟨mem_ranF.mp hwd, ?_, ?_⟩
      · rw [hT2]
        intro hmem
        exact (mem_canonTin.mp hmem).2.1 hwd
      · rw [hT2o]
        intro hmem
        exact (mem_canonTout.mp hmem).2.1 hwd
    · by_cases hx : ∃ x ∈ G2.nbr w, x ∈ ranF st.sp.mapping
      · refine Or.inr (Or.inl ⟨fun h => hwd (mem_ranF.mpr h), ?_, ?_⟩)
        · rw [hT2]
          exact mem_canonTin.mpr ⟨hw, hwd, hx⟩
        · rw [hT2o]
          intro hmem
          rcases hx with ⟨x, hx1, hx2⟩
          exact (mem_canonTout.mp hmem).2.2 x hx1 hx2
      · refine Or.inr (Or.inr ⟨fun h => hwd (mem_ranF.mpr h), ?_, ?_⟩)
        · rw [hT2]
          intro hmem
          exact hx (mem_canonTin.mp hmem).2.2
        · rw [hT2o]
          refine mem_canonTout.mpr ⟨hw, hwd, ?_⟩
          intro x hx1 hx2
          exact hx ⟨x, hx1, hx2⟩

/-- Witness for C8 at the initial state of a concrete search. -/
theorem vf2pp_partition_invariant_witness :
    (∀ v ∈ (Graph.nodesList ⟨[0], []⟩),
      ExactlyOne (v ∈ (initState ⟨[0], []⟩ ⟨[5], []⟩ (fun _ => 7)
          (fun _ => 7)).sp.mapping.map Prod.fst)
        (v ∈ (initState ⟨[0], []⟩ ⟨[5], []⟩ (fun _ => 7) (fun _ => 7)).sp.T1)
        (v ∈ (initState ⟨[0], []⟩ ⟨[5], []⟩ (fun _ => 7) (fun _ => 7)).sp.T1_out)) ∧
    (∀ w ∈ (Graph.nodesList ⟨[5], []⟩),
      ExactlyOne (w ∈ (initState ⟨[0], []⟩ ⟨[5], []⟩ (fun _ => 7)
          (fun _ => 7)).sp.reverse_mapping.map Prod.fst)
        (w ∈ (initState ⟨[0], []⟩ ⟨[5], []⟩ (fun _ => 7) (fun _ => 7)).sp.T2)
        (w ∈ (initState ⟨[0], []⟩ ⟨[5], []⟩ (fun _ => 7) (fun _ => 7)).sp.T2_out)) :=
  vf2pp_partition_invariant ⟨[0], []⟩ ⟨[5], []⟩ (fun _ => 7) (fun _ => 7) _
    (by decide) (by decide) Reaches.init

/-! ### C1: every yielded mapping is a label-preserving isomorphism -/

theorem runVF2_step_halt {G1 G2 : Graph} {l1 l2 : ℕ → ℕ} {no : List ℕ} {st : DState}
    {y : Option (List (ℕ × ℕ))} {fuel : ℕ}
    (h : stepDriver G1 G2 l1 l2 no st = (y, Next.halt)) :
    runVF2 G1 G2 l1 l2 no (fuel + 1) st = (y.toList, Outcome.normal) := by
  rw [runVF2, h]

theorem runVF2_step_err {G1 G2 : Graph} {l1 l2 : ℕ → ℕ} {no : List ℕ} {st : DState}
    {y : Option (List (ℕ × ℕ))} {fuel : ℕ}
    (h : stepDriver G1 G2 l1 l2 no st = (y, Next.err)) :
    runVF2 G1 G2 l1 l2 no (fuel + 1) st = (y.toList, Outcome.indexError) := by
  rw [runVF2, h]

theorem runVF2_step_cont {G1 G2 : Graph} {l1 l2 : ℕ → ℕ} {no : List ℕ} {st st' : DState}
    {y : Option (List (ℕ × ℕ))} {fuel : ℕ}
    (h : stepDriver G1 G2 l1 l2 no st = (y, Next.cont st')) :
    runVF2 G1 G2 l1 l2 no (fuel + 1) st =
      (y.toList ++ (runVF2 G1 G2 l1 l2 no fuel st').1,
        (runVF2 G1 G2 l1 l2 no fuel st').2) := by
  rw [runVF2, h]

theorem runVF2_sound {G1 G2 : Graph} {l1 l2 : ℕ → ℕ} {st : DState} {fuel : ℕ}
    {m : List (ℕ × ℕ)}
    (hnd1 : G1.nodesList.Nodup) (hne : G1.nodesList ≠ [])
    (hr : Reaches G1 G2 l1 l2 st)
    (hm : m ∈ (runVF2 G1 G2 l1 l2 (matching_order G1 G2 l1 l2) fuel st).1) :
    CompleteFacts G1 G2 l1 l2 m := by
  induction fuel generalizing st with
  | zero => rw [runVF2] at hm; exact absurd hm (List.not_mem_nil m)
  | succ fuel ih =>
    rcases hstep : stepDriver G1 G2 l1 l2 (matching_order G1 G2 l1 l2) st with ⟨y, nx⟩
    have hmain := stepDriver_main hnd1 (fun x hx => hx) (reaches_inv hnd1 hne hr) hstep
    cases nx with
    | halt =>
      rw [runVF2_step_halt hstep] at hm
      exact hmain.2 m (Option.mem_def.mp (Option.mem_toList.mp hm))
    | err =>
      rw [runVF2_step_err hstep] at hm
      exact hmain.2 m (Option.mem_def.mp (Option.mem_toList.mp hm))
    | cont st' =>
      rw [runVF2_step_cont hstep] at hm
      rcases List.mem_append.mp hm with hm1 | hm2
      · exact hmain.2 m (Option.mem_def.mp (Option.mem_toList.mp hm1))
      · exact ih (Reaches.step hr hstep) hm2

theorem precheck_order {G1 G2 : Graph} {l1 l2 : ℕ → ℕ}
    (h : precheck G1 G2 l1 l2 = true) : G1.order = G2.order := by
  by_contra hne
  simp [precheck, hne] at h

theorem completeFacts_keys_eq {G1 G2 : Graph} {l1 l2 : ℕ → ℕ} {M : List (ℕ × ℕ)}
    (hnd1 : G1.nodesList.Nodup) (hc : CompleteFacts G1 G2 l1 l2 M) :
    (M.map Prod.fst).toFinset = G1.nodesList.toFinset := by
  apply Finset.eq_of_subset_of_card_le
  · intro x hx
    rw [List.mem_toFinset] at hx ⊢
    rcases List.mem_map.mp hx with ⟨p, hp, rfl⟩
    exact (hc.mem p hp).1
  · rw [List.toFinset_card_of_nodup hnd1, List.toFinset_card_of_nodup hc.keys_nd,
      List.length_map, hc.len, Graph.order]

theorem completeFacts_vals_eq {G1 G2 : Graph} {l1 l2 : ℕ → ℕ} {M : List (ℕ × ℕ)}
    (hnd2 : G2.nodesList.Nodup) (horder : G1.order = G2.order)
    (hc : CompleteFacts G1 G2 l1 l2 M) :
    (M.map Prod.snd).toFinset = G2.nodesList.toFinset := by
  apply Finset.eq_of_subset_of_card_le
  · intro x hx
    rw [List.mem_toFinset] at hx ⊢
    rcases List.mem_map.mp hx with ⟨p, hp, rfl⟩
    exact (hc.mem p hp).2
  · rw [List.toFinset_card_of_nodup hnd2, List.toFinset_card_of_nodup hc.vals_nd,
      List.length_map, hc.len, horder]
    exact le_of_eq rfl

theorem completeFacts_iso {G1 G2 : Graph} {l1 l2 : ℕ → ℕ} {M : List (ℕ × ℕ)}
    (hnd1 : G1.nodesList.Nodup) (hnd2 : G2.nodesList.Nodup)
    (horder : G1.order = G2.order)
    (hc : CompleteFacts G1 G2 l1 l2 M) :
    IsIsoMap G1 G2 l1 l2 (mapFun M) := by
  have hpair : ∀ x ∈ G1.nodesList, (x, mapFun M x) ∈ M := by
    intro x hx
    have hxk : x ∈ (M.map Prod.fst).toFinset := by
      rw [completeFacts_keys_eq hnd1 hc]
      exact List.mem_toFinset.mpr hx
    rcases List.mem_map.mp (List.mem_toFinset.mp hxk) with ⟨p, hp, rfl⟩
    have hlk : M.lookup p.1 = some p.2 := mem_lookup hc.keys_nd (by
      rcases p with ⟨a, b⟩; exact hp)
    have : mapFun M p.1 = p.2 := by rw [mapFun, hlk]; rfl
    rw [this]
    rcases p with ⟨a, b⟩; exact hp
  have himg : ∀ x ∈ G1.nodesList, mapFun M x ∈ G2.nodesList :=
    fun x hx => (hc.mem _ (hpair x hx)).2
  have hfuninj : ∀ x ∈ G1.nodesList, ∀ x' ∈ G1.nodesList,
      mapFun M x = mapFun M x' → x = x' := by
    intro x hx x' hx' he
    have h1 := hpair x hx
    have h2 := hpair x' hx'
    have := List.inj_on_of_nodup_map hc.vals_nd h1 h2 (by simpa using he)
    exact congrArg Prod.fst this
  have hself : ∀ x y : ℕ, (x, y) ∈ M → G1.adj x x = G2.adj y y := by
    intro x y hxy
    have hx1 : x ∈ G1.nodesList := (hc.mem _ hxy).1
    have hy2 : y ∈ G2.nodesList := (hc.mem _ hxy).2
    have hmx : mapFun M x = y := by
      rw [mapFun, mem_lookup hc.keys_nd hxy]; rfl
    have hlen1 : (G1.nbr x).length =
        (G1.nodesList.toFinset.filter (fun v => G1.adj x v = true)).card := by
      rw [Graph.nbr, ← List.toFinset_filter,
        List.toFinset_card_of_nodup (hnd1.filter _)]
    have hlen2 : (G2.nbr y).length =
        (G2.nodesList.toFinset.filter (fun w => G2.adj y w = true)).card := by
      rw [Graph.nbr, ← List.toFinset_filter,
        List.toFinset_card_of_nodup (hnd2.filter _)]
    have hfull1 : G1.nodesList.toFinset.filter (fun v => G1.adj x v = true) =
        (if G1.adj x x = true
          then insert x (G1.nodesList.toFinset.filter (fun v => v ≠ x ∧ G1.adj x v = true))
          else G1.nodesList.toFinset.filter (fun v => v ≠ x ∧ G1.adj x v = true)) := by
      by_cases hxx : G1.adj x x = true
      · rw [if_pos hxx]
        apply Finset.ext
        intro v
        simp only [Finset.mem_filter, Finset.mem_insert, List.mem_toFinset]
        constructor
        · rintro ⟨hv, hadj⟩
          by_cases hvx : v = x
          · exact Or.inl hvx
          · exact Or.inr ⟨hv, hvx, hadj⟩
        · rintro (rfl | ⟨hv, _, hadj⟩)
          · exact ⟨hx1, hxx⟩
          · exact ⟨hv, hadj⟩
      · rw [if_neg hxx]
        apply Finset.ext
        intro v
        simp only [Finset.mem_filter, List.mem_toFinset]
        constructor
        · rintro ⟨hv, hadj⟩
          refine ⟨hv, ?_, hadj⟩
          rintro rfl
          exact hxx hadj
        · rintro ⟨hv, -, hadj⟩
          exact ⟨hv, hadj⟩
    have hfull2 : G2.nodesList.toFinset.filter (fun w => G2.adj y w = true) =
        (if G2.adj y y = true
          then insert y (G2.nodesList.toFinset.filter (fun w => w ≠ y ∧ G2.adj y w = true))
          else G2.nodesList.toFinset.filter (fun w => w ≠ y ∧ G2.adj y w = true)) := by
      by_cases hyy : G2.adj y y = true
      · rw [if_pos hyy]
        apply Finset.ext
        intro w
        simp only [Finset.mem_filter, Finset.mem_insert, List.mem_toFinset]
        constructor
        · rintro ⟨hw, hadj⟩
          by_cases hwy : w = y
          · exact Or.inl hwy
          · exact Or.inr ⟨hw, hwy, hadj⟩
        · rintro (rfl | ⟨hw, _, hadj⟩)
          · exact ⟨hy2, hyy⟩
          · exact ⟨hw, hadj⟩
      · rw [if_neg hyy]
        apply Finset.ext
        intro w
        simp only [Finset.mem_filter, List.mem_toFinset]
        constructor
        · rintro ⟨hw, hadj⟩
          refine ⟨hw, ?_, hadj⟩
          rintro rfl
          exact hyy hadj
        · rintro ⟨hw, -, hadj⟩
          exact ⟨hw, hadj⟩
    have hoffeq : (G1.nodesList.toFinset.filter (fun v => v ≠ x ∧ G1.adj x v = true)).card =
        (G2.nodesList.toFinset.filter (fun w => w ≠ y ∧ G2.adj y w = true)).card := by
      refine Finset.card_bij (fun a _ => mapFun M a) ?_ ?_ ?_
      · intro a ha
        rcases Finset.mem_filter.mp ha with ⟨ha1, hax, hadj⟩
        have ha1' := List.mem_toFinset.mp ha1
        have hap := hpair a ha1'
        refine Finset.mem_filter.mpr ⟨List.mem_toFinset.mpr (himg a ha1'), ?_, ?_⟩
        · intro he
          have := List.inj_on_of_nodup_map hc.vals_nd hap hxy (by simpa using he)
          exact hax (congrArg Prod.fst this)
        · have := hc.adjp (x, y) hxy (a, mapFun M a) hap (Ne.symm hax)
          rw [← this]
          exact hadj
      · intro a1 ha1 a2 ha2 he
        rcases Finset.mem_filter.mp ha1 with ⟨hb1, -⟩
        rcases Finset.mem_filter.mp ha2 with ⟨hb2, -⟩
        exact hfuninj a1 (List.mem_toFinset.mp hb1) a2 (List.mem_toFinset.mp hb2) he
      · intro b hb
        rcases Finset.mem_filter.mp hb with ⟨hb1, hby, hadj⟩
        have hbv : b ∈ (M.map Prod.snd).toFinset := by
          rw [completeFacts_vals_eq hnd2 horder hc]
          exact hb1
        rcases List.mem_map.mp (List.mem_toFinset.mp hbv) with ⟨p, hp, rfl⟩
        have hp1 : p.1 ∈ G1.nodesList := (hc.mem p hp).1
        have hp2 : (p.1, p.2) ∈ M := by rcases p with ⟨a, b⟩; exact hp
        have hpx : p.1 ≠ x := by
          rintro rfl
          have := List.inj_on_of_nodup_map hc.keys_nd hp2 hxy rfl
          exact hby (congrArg Prod.snd this)
        refine ⟨p.1, Finset.mem_filter.mpr ⟨List.mem_toFinset.mpr hp1, hpx, ?_⟩, ?_⟩
        · have := hc.adjp (x, y) hxy (p.1, p.2) hp2 (Ne.symm hpx)
          rw [this]
          exact hadj
        · show mapFun M p.1 = p.2
          rw [mapFun, mem_lookup hc.keys_nd hp2]; rfl
    have hdeg := hc.deg (x, y) hxy
    rw [Graph.degree, Graph.degree, hlen1, hlen2, hfull1, hfull2] at hdeg
    by_cases hxx : G1.adj x x = true <;> by_cases hyy : G2.adj y y = true
    · rw [hxx, hyy]
    · rw [if_pos hxx, if_neg hyy, if_pos hxx, if_neg hyy,
        Finset.card_insert_of_not_mem (by simp)] at hdeg
      omega
    · rw [if_neg hxx, if_pos hyy, if_neg hxx, if_pos hyy,
        Finset.card_insert_of_not_mem (by simp)] at hdeg
      omega
    · rw [Bool.not_eq_true] at hxx hyy
      rw [hxx, hyy]
  refine ⟨⟨?_, ?_, ?_⟩, ?_, ?_⟩
  · intro x hx
    exact himg x hx
  · intro x hx x' hx' he
    exact hfuninj x hx x' hx' he
  · intro b hb
    have hbv : b ∈ (M.map Prod.snd).toFinset := by
      rw [completeFacts_vals_eq hnd2 horder hc]
      exact List.mem_toFinset.mpr hb
    rcases List.mem_map.mp (List.mem_toFinset.mp hbv) with ⟨p, hp, rfl⟩
    have hp2 : (p.1, p.2) ∈ M := by rcases p with ⟨a, c⟩; exact hp
    refine ⟨p.1, (hc.mem p hp).1, ?_⟩
    rw [mapFun, mem_lookup hc.keys_nd hp2]; rfl
  · intro u hu v hv
    by_cases huv : u = v
    · subst huv
      exact hself u (mapFun M u) (hpair u hu)
    · exact hc.adjp (u, mapFun M u) (hpair u hu) (v, mapFun M v) (hpair v hv) huv
  · intro u hu
    exact hc.label (u, mapFun M u) (hpair u hu)

/-- C1: every complete mapping the query yields on `G1`, `G2` with label
maps `l1`, `l2` is sound: as a function it is a bijection from all of
G1's nodes onto all of G2's nodes such that `(u,v)` is an edge of G1 iff
`(map u, map v)` is an edge of G2, and `l1 u = l2 (map u)` for every
node `u` of G1. -/
theorem vf2pp_soundness (fuel : ℕ) (G1 G2 : Graph) (l1 l2 : ℕ → ℕ)
    (hnd1 : G1.nodesList.Nodup) (hnd2 : G2.nodesList.Nodup)
    (m : List (ℕ × ℕ)) (hm : m ∈ (isomorphic_VF2pp fuel G1 G2 l1 l2).1) :
    IsIsoMap G1 G2 l1 l2 (mapFun m) := by
  rw [isomorphic_VF2pp] at hm
  by_cases hb : G1.order = 0 ∧ G2.order = 0
  · rw [if_pos hb] at hm
    exact absurd hm (List.not_mem_nil m)
  · rw [if_neg hb] at hm
    by_cases hp : precheck G1 G2 l1 l2 = false
    · rw [if_pos hp] at hm
      exact absurd hm (List.not_mem_nil m)
    · rw [if_neg hp] at hm
      have hp' : precheck G1 G2 l1 l2 = true := by
        cases h : precheck G1 G2 l1 l2
        · exact absurd h hp
        · rfl
      have horder := precheck_order hp'
      have hne : G1.nodesList ≠ [] := by
        intro he
        refine hb ⟨?_, ?_⟩
        · rw [Graph.order, he]; rfl
        · rw [← horder, Graph.order, he]; rfl
      exact completeFacts_iso hnd1 hnd2 horder (runVF2_sound hnd1 hne Reaches.init hm)

/-- Witness for C1: the single-node query yields the mapping `[(0, 5)]`,
which is an isomorphism. -/
theorem vf2pp_soundness_witness :
    (Graph.nodesList ⟨[0], []⟩).Nodup ∧ (Graph.nodesList ⟨[5], []⟩).Nodup ∧
    [(0, 5)] ∈ (isomorphic_VF2pp 9 ⟨[0], []⟩ ⟨[5], []⟩ (fun _ => 7) (fun _ => 7)).1 ∧
    IsIsoMap ⟨[0], []⟩ ⟨[5], []⟩ (fun _ => 7) (fun _ => 7) (mapFun [(0, 5)]) :=
  ⟨by decide, by decide, by decide,
    vf2pp_soundness 9 ⟨[0], []⟩ ⟨[5], []⟩ (fun _ => 7) (fun _ => 7)
      (by decide) (by decide) [(0, 5)] (by decide)⟩
